import Mathlib

/-!
# Verification of the configurable HashTable engine

Shallow embedding of `src/algorithm/HashTable.ts` (the refactored revision with
`_findSlot`, `tableSize` and the prime helpers).  Keys and values are strings;
JavaScript numbers stay small enough here that `Nat` arithmetic is exact.
TypeScript casts between the two bucket shapes are modelled by a sum type
`Buckets`; the states in which the cast would be wrong are excluded by the
shape hypotheses carried by the theorems (they are unreachable in the source).
`Math.random` draws inside `generateUniversalParams` are modelled by explicit
`randA randB : Nat` parameters reduced into the documented ranges.
The dead re-generation branch inside `hash` (taken only when the universal
parameters are invalid, which construction prevents) is modelled away; every
theorem touching universal hashing assumes `1 < universal_p ∧ 1 ≤ universal_a`,
the invariant the constructor establishes.
Fallible operations return `Option`: `set` returns `none` exactly where the
source throws its overflow error, leaving the table untouched.
-/

namespace DSA

/-- `HashingStrategy` enum from the source. -/
inductive HashingStrategy where
  | Simple
  | Universal
deriving DecidableEq, Repr

/-- `CollisionResolution` enum from the source. -/
inductive CollisionResolution where
  | Chaining
  | LinearProbing
  | DoubleHashing
deriving DecidableEq, Repr

/-- One open-addressing slot: `null`, the `DELETED_MARKER` sentinel, or a
`HashTableNode` with key and value. -/
inductive ProbeSlot where
  | empty
  | tombstone
  | occupied (key value : String)
deriving DecidableEq, Repr

/-- The `buckets` field, whose runtime shape depends on the collision policy. -/
inductive Buckets where
  | chains (bs : List (List (String × String)))
  | slots (bs : List ProbeSlot)
deriving DecidableEq, Repr

/-- The `HashTable` state: every private field of the class. -/
structure HashTable where
  buckets : Buckets
  size : Nat
  tableSize : Nat
  hashingStrategy : HashingStrategy
  collisionResolution : CollisionResolution
  itemCount : Nat
  universal_p : Nat
  universal_a : Nat
  universal_b : Nat
  double_hashing_R : Nat
deriving DecidableEq, Repr

/-- Whether a collision policy is open addressing (the condition
`collision === LinearProbing || collision === DoubleHashing` in the source). -/
def isProbingPolicy : CollisionResolution → Bool
  | .Chaining => false
  | .LinearProbing => true
  | .DoubleHashing => true

/-- Trial-division loop of `isPrime`: checks divisors `i, i+2, i+6, i+8, ...`
while `i * i ≤ n`.  The structural `fuel` argument only bounds the iteration
count; `isPrime` passes `n`, which always suffices (the invariant
`n + 1 ≤ i + 6 * fuel` holds at the call and is preserved, making the
fuel-out branch coincide with the loop-exit branch `i * i > n`). -/
def isPrimeAux (n : Nat) : Nat → Nat → Bool
  | 0, _ => true
  | fuel + 1, i =>
    if i * i ≤ n then
      if n % i = 0 || n % (i + 2) = 0 then false
      else isPrimeAux n fuel (i + 6)
    else true

/-- `isPrime` from the source (6k ± 1 trial division). -/
def isPrime (num : Nat) : Bool :=
  if num ≤ 1 then false
  else if num ≤ 3 then true
  else if num % 2 = 0 || num % 3 = 0 then false
  else isPrimeAux num num 5

/-- The `while (true)` search of `findNextPrime`, including the
`prime > num * 2 && prime > 1000000` safety fallback.  The structural `fuel`
bounds the iterations; `findNextPrime` passes `2 * num + 1000002`, more than
the fallback guard can ever let the loop consume. -/
def findNextPrimeLoop (num : Nat) : Nat → Nat → Nat
  | 0, prime => prime
  | fuel + 1, prime =>
    if isPrime prime then prime
    else if num * 2 < prime + 1 ∧ 1000000 < prime + 1 then num * 2
    else findNextPrimeLoop num fuel (prime + 1)

/-- `findNextPrime` from the source: smallest prime `≥ num` (2 for `num ≤ 2`). -/
def findNextPrime (num : Nat) : Nat :=
  if num ≤ 2 then 2 else findNextPrimeLoop num (2 * num + 1000002) num

/-- The downward scan of `findPrevPrime` (`while (prime > 1)`). -/
def findPrevPrimeLoop : Nat → Nat
  | 0 => 1
  | 1 => 1
  | n + 2 => if isPrime (n + 2) then n + 2 else findPrevPrimeLoop (n + 1)

/-- `findPrevPrime` from the source: largest prime `< num`, with 1 as the
fallback for `num ≤ 2`. -/
def findPrevPrime (num : Nat) : Nat :=
  if num ≤ 2 then 1 else findPrevPrimeLoop (num - 1)

/-- UTF-16-ish code units of a key (all concrete keys used here are ASCII,
where `charCodeAt` agrees with `Char.toNat`). -/
def charCodes (s : String) : List Nat := s.data.map Char.toNat

/-- `keyToInteger`: polynomial rolling hash mod `universal_p` (or the default
large prime when `universal_p ≤ 1`). -/
def keyToInteger (p : Nat) (key : String) : Nat :=
  let modulus := if 1 < p then p else 10000019
  (charCodes key).foldl (fun acc c => (acc * 31 + c) % modulus) 0

/-- The weighted character sum of the Simple strategy:
`sum of charCode * (1-based position)`. -/
def weightedSum : List Nat → Nat → Nat
  | [], _ => 0
  | c :: cs, pos => c * pos + weightedSum cs (pos + 1)

/-- Raw Simple hash value of a key before the final modulo. -/
def simpleHashValue (key : String) : Nat := weightedSum (charCodes key) 1

/-- `hash`: the primary hash `h1(key)`, reduced mod `tableSize`
(`((x % m) + m) % m` in the source, which on naturals is `x % m`).
The per-character step trace is diagnostic only and not modelled. -/
def hashIndex (ht : HashTable) (key : String) : Nat :=
  match ht.hashingStrategy with
  | .Simple => simpleHashValue key % ht.tableSize
  | .Universal =>
      let k := keyToInteger ht.universal_p key
      ((ht.universal_a * k + ht.universal_b) % ht.universal_p) % ht.tableSize

/-- `hash2`: the double-hashing step `R - (k mod R)`, with fallback 1 when
`R ≤ 0`. -/
def hash2 (ht : HashTable) (key : String) : Nat :=
  if ht.double_hashing_R ≤ 0 then 1
  else ht.double_hashing_R - keyToInteger ht.universal_p key % ht.double_hashing_R

/-- The probe step `_findSlot` actually uses: 1 for linear probing, `hash2`
clamped by the `step <= 0 || step >= m` safety check for double hashing. -/
def effStep (ht : HashTable) (key : String) : Nat :=
  if ht.collisionResolution = .DoubleHashing then
    if hash2 ht key ≤ 0 ∨ ht.tableSize ≤ hash2 ht key then 1 else hash2 ht key
  else 1

/-- Probe index number `i`: `(initialIndex + i * step) % tableSize`
(the robust modulo of the source is the plain one on naturals). -/
def probeAt (h step m i : Nat) : Nat := (h + i * step) % m

/-- Read of `buckets[j]` on a probing bucket array (in-range in every
well-formed state; the default is irrelevant there). -/
def slotAt (bs : List ProbeSlot) (j : Nat) : ProbeSlot := bs.getD j .empty

/-- Result record of `_findSlot`; `index` is `-1` when no slot is available. -/
structure FindSlotResult where
  found : Bool
  index : Int
  probes : Nat
  probeSequence : List Nat
deriving DecidableEq, Repr

/-- The probing loop of `_findSlot`: `n` iterations remain, `i` is the loop
counter, `fa` is `firstAvailableIndex`. -/
def findSlotGo (bs : List ProbeSlot) (key : String) (h step m : Nat) :
    Nat → Nat → Int → Nat → List Nat → FindSlotResult
  | 0, _, fa, probes, seq => ⟨false, fa, probes, seq⟩
  | n + 1, i, fa, probes, seq =>
    match slotAt bs (probeAt h step m i) with
    | .empty =>
        ⟨false, if fa = -1 then (probeAt h step m i : Int) else fa,
          probes + 1, seq ++ [probeAt h step m i]⟩
    | .tombstone =>
        findSlotGo bs key h step m n (i + 1)
          (if fa = -1 then (probeAt h step m i : Int) else fa)
          (probes + 1) (seq ++ [probeAt h step m i])
    | .occupied k _ =>
        if k = key then
          ⟨true, (probeAt h step m i : Int), probes + 1,
            seq ++ [probeAt h step m i]⟩
        else findSlotGo bs key h step m n (i + 1) fa (probes + 1)
          (seq ++ [probeAt h step m i])

/-- `_findSlot` on a probing bucket array `bs` of table `ht`. -/
def findSlotOf (ht : HashTable) (bs : List ProbeSlot) (key : String) : FindSlotResult :=
  findSlotGo bs key (hashIndex ht key) (effStep ht key) ht.tableSize ht.tableSize 0 (-1) 0 []

/-- Result record of `set`. -/
structure SetResult where
  isUpdate : Bool
  finalIndex : Int
  probes : Nat
  probeSequence : List Nat
deriving DecidableEq, Repr

/-- Result record of `get`. -/
structure GetResult where
  value : Option String
  finalIndex : Option Nat
  probes : Nat
  probeSequence : List Nat
deriving DecidableEq, Repr

/-- Result record of `remove`. -/
structure RemoveResult where
  success : Bool
  finalIndex : Option Nat
  probes : Nat
  probeSequence : List Nat
deriving DecidableEq, Repr

/-- The chaining branch of `set` on one bucket: update the first entry with
this key in place, else append a new node; the flag is `isUpdate`. -/
def chainSet : List (String × String) → String → String → Bool × List (String × String)
  | [], key, value => (false, [(key, value)])
  | (k, v) :: rest, key, value =>
      if k = key then (true, (k, value) :: rest)
      else
        let r := chainSet rest key value
        (r.1, (k, v) :: r.2)

/-- The chaining branch of `remove` on one bucket (`splice` of the first
match); `none` when the key is absent, so no mutation happens. -/
def chainRemove : List (String × String) → String → Option (List (String × String))
  | [], _ => none
  | (k, v) :: rest, key =>
      if k = key then some rest
      else (chainRemove rest key).map (fun r => (k, v) :: r)

/-- `set(key, value)`.  `none` models the thrown `Hash table overflow` error
(the table is unchanged there, as no new state is produced). -/
def HashTable.set (ht : HashTable) (key value : String) :
    Option (SetResult × HashTable) :=
  match ht.collisionResolution, ht.buckets with
  | .Chaining, .chains bs =>
      let i := hashIndex ht key
      let bucket := bs.getD i []
      let r := chainSet bucket key value
      some (⟨r.1, (i : Int), if r.1 then bucket.length else bucket.length + 1, [i]⟩,
        { ht with buckets := .chains (bs.set i r.2),
                  itemCount := if r.1 then ht.itemCount else ht.itemCount + 1 })
  | .LinearProbing, .slots bs | .DoubleHashing, .slots bs =>
      let r := findSlotOf ht bs key
      if r.found then
        some (⟨true, r.index, r.probes, r.probeSequence⟩,
          { ht with buckets := .slots (bs.set r.index.toNat (.occupied key value)) })
      else if r.index = -1 then none
      else
        some (⟨false, r.index, r.probes, r.probeSequence⟩,
          { ht with buckets := .slots (bs.set r.index.toNat (.occupied key value)),
                    itemCount := ht.itemCount + 1 })
  | _, _ => none

/-- `get(key)` (never mutates). -/
def HashTable.get (ht : HashTable) (key : String) : GetResult :=
  match ht.collisionResolution, ht.buckets with
  | .Chaining, .chains bs =>
      let i := hashIndex ht key
      let bucket := bs.getD i []
      match bucket.find? (fun e => e.1 = key) with
      | some e => ⟨some e.2, some i, bucket.length, [i]⟩
      | none => ⟨none, none, 0, [i]⟩
  | .LinearProbing, .slots bs | .DoubleHashing, .slots bs =>
      let r := findSlotOf ht bs key
      if r.found then
        match slotAt bs r.index.toNat with
        | .occupied _ v => ⟨some v, some r.index.toNat, r.probes, r.probeSequence⟩
        | _ => ⟨none, none, r.probes, r.probeSequence⟩
      else ⟨none, none, r.probes, r.probeSequence⟩
  | _, _ => ⟨none, none, 0, []⟩

/-- `remove(key)`: returns the result record and the next table state
(unchanged when the key is not found). -/
def HashTable.remove (ht : HashTable) (key : String) : RemoveResult × HashTable :=
  match ht.collisionResolution, ht.buckets with
  | .Chaining, .chains bs =>
      let i := hashIndex ht key
      let bucket := bs.getD i []
      match chainRemove bucket key with
      | some newBucket =>
          (⟨true, some i, bucket.length, [i]⟩,
           { ht with buckets := .chains (bs.set i newBucket),
                     itemCount := ht.itemCount - 1 })
      | none => (⟨false, none, bucket.length, [i]⟩, ht)
  | .LinearProbing, .slots bs | .DoubleHashing, .slots bs =>
      let r := findSlotOf ht bs key
      if r.found then
        (⟨true, some r.index.toNat, r.probes, r.probeSequence⟩,
         { ht with buckets := .slots (bs.set r.index.toNat .tombstone),
                   itemCount := ht.itemCount - 1 })
      else (⟨false, none, r.probes, r.probeSequence⟩, ht)
  | _, _ => (⟨false, none, 0, []⟩, ht)

/-- `initializeBuckets`: fresh storage for the given policy and table size. -/
def initBuckets (collision : CollisionResolution) (tableSize : Nat) : Buckets :=
  match collision with
  | .Chaining => .chains (List.replicate tableSize [])
  | _ => .slots (List.replicate tableSize .empty)

/-- The `initializeBuckets` method: replace storage, reset `itemCount`. -/
def HashTable.initializeBuckets (ht : HashTable) : HashTable :=
  { ht with buckets := initBuckets ht.collisionResolution ht.tableSize,
            itemCount := 0 }

/-- `setDoubleHashingR` value: `findPrevPrime tableSize` with the `≤ 0`
fallback to 1. -/
def doubleHashingRFor (tableSize : Nat) : Nat :=
  let r := findPrevPrime tableSize
  if r ≤ 0 then 1 else r

/-- The constructor.  `requestedSize` is any JS integer; `randA randB` model
the two `Math.random` draws of `generateUniversalParams` (used only for
Universal hashing).  `p = findNextPrime (tableSize * 100)`, `a ∈ [1, p-1]`,
`b ∈ [0, p-1]`. -/
def create (requestedSize : Int) (hashing : HashingStrategy)
    (collision : CollisionResolution) (randA randB : Nat) : HashTable :=
  let size : Nat := (max 1 requestedSize).toNat
  let tableSize : Nat :=
    if isProbingPolicy collision then findNextPrime size else size
  let p : Nat := if hashing = .Universal then findNextPrime (tableSize * 100) else 10000019
  let a : Nat := if hashing = .Universal then randA % (p - 1) + 1 else 1
  let b : Nat := if hashing = .Universal then randB % p else 0
  let r : Nat := if collision = .DoubleHashing then doubleHashingRFor tableSize else 1
  { buckets := initBuckets collision tableSize
    size := size
    tableSize := tableSize
    hashingStrategy := hashing
    collisionResolution := collision
    itemCount := 0
    universal_p := p
    universal_a := a
    universal_b := b
    double_hashing_R := r }

/-- `getLoadFactor()` as an exact rational: `itemCount / tableSize`, 0 when
`tableSize = 0`. -/
def getLoadFactor (ht : HashTable) : ℚ :=
  if 0 < ht.tableSize then (ht.itemCount : ℚ) / (ht.tableSize : ℚ) else 0

/-- `setStrategies(hashing, collision)`; `randA randB` model the random draws
if universal parameters are regenerated. -/
def setStrategies (ht : HashTable) (hashing : HashingStrategy)
    (collision : CollisionResolution) (randA randB : Nat) : HashTable :=
  let oldCollision := ht.collisionResolution
  let oldHashing := ht.hashingStrategy
  let needsPrimeSize := isProbingPolicy collision
  let oldNeedsPrimeSize := isProbingPolicy oldCollision
  let tableSize :=
    if needsPrimeSize && !oldNeedsPrimeSize then findNextPrime ht.size
    else if !needsPrimeSize && oldNeedsPrimeSize then ht.size
    else if needsPrimeSize then findNextPrime ht.size
    else ht.size
  let regenUniv := hashing = .Universal ∧
    (oldHashing ≠ hashing ∨ needsPrimeSize ≠ oldNeedsPrimeSize)
  let p := if regenUniv then findNextPrime (tableSize * 100) else ht.universal_p
  let a := if regenUniv then randA % (p - 1) + 1 else ht.universal_a
  let b := if regenUniv then randB % p else ht.universal_b
  let r := if collision = .DoubleHashing ∧
      (oldCollision ≠ collision ∨ needsPrimeSize ≠ oldNeedsPrimeSize)
    then doubleHashingRFor tableSize else ht.double_hashing_R
  { ht with hashingStrategy := hashing
            collisionResolution := collision
            tableSize := tableSize
            universal_p := p
            universal_a := a
            universal_b := b
            double_hashing_R := r
            buckets := initBuckets collision tableSize
            itemCount := 0 }

/-- The live entries `resize` collects before rehashing (chain nodes in bucket
order, occupied probing slots in index order; tombstones and empties skipped). -/
def collectItems : Buckets → List (String × String)
  | .chains bs => bs.flatten
  | .slots bs =>
      bs.filterMap (fun s => match s with
        | .occupied k v => some (k, v)
        | _ => none)

/-- The re-insertion loop of `resize`: every collected entry goes through the
ordinary `set`; a per-item overflow is caught and skipped (the source's
try/catch). -/
def rehashFold (ht : HashTable) (items : List (String × String)) : HashTable :=
  items.foldl (fun acc kv =>
    match acc.set kv.1 kv.2 with
    | some st => st.2
    | none => acc) ht

/-- `resize(newRequestedSize)`: collect live items, recompute sizes and `R`,
reinitialize storage, re-insert through `set`. -/
def HashTable.resize (ht : HashTable) (newRequestedSizeInput : Int) : HashTable :=
  let newRequestedSize : Nat := (max 1 newRequestedSizeInput).toNat
  let oldItems := collectItems ht.buckets
  let tableSize :=
    if isProbingPolicy ht.collisionResolution then findNextPrime newRequestedSize
    else newRequestedSize
  let r := if ht.collisionResolution = .DoubleHashing
    then doubleHashingRFor tableSize else ht.double_hashing_R
  let ht2 := HashTable.initializeBuckets
    { ht with size := newRequestedSize, tableSize := tableSize, double_hashing_R := r }
  if 0 < oldItems.length ∧ tableSize = 0 then ht2
  else rehashFold ht2 oldItems

/-! ## Specification layer for the probing loop -/

/-- First index `j` with `s ≤ j < s + n` satisfying `p`, scanning upward. -/
def firstIdx (p : Nat → Bool) : Nat → Nat → Option Nat
  | 0, _ => none
  | n + 1, s => if p s then some s else firstIdx p n (s + 1)

/-- A probe at physical slot `j` stops the search: the slot is Empty, or
Occupied by the searched key. -/
def isStopB (bs : List ProbeSlot) (key : String) (j : Nat) : Bool :=
  match slotAt bs j with
  | .empty => true
  | .tombstone => false
  | .occupied k _ => k = key

/-- The physical slot `j` holds a tombstone. -/
def isTombB (bs : List ProbeSlot) (j : Nat) : Bool :=
  match slotAt bs j with
  | .tombstone => true
  | _ => false

/-- `firstAvailableIndex` after scanning the first `bound` probes: the probe
index of the first tombstone seen, or `-1`. -/
def faOf (bs : List ProbeSlot) (h step m bound : Nat) : Int :=
  match firstIdx (fun j => isTombB bs (probeAt h step m j)) bound 0 with
  | some j => ((probeAt h step m j : Nat) : Int)
  | none => -1

/-- Declarative description of `_findSlot`, following the specification text:
probe `(h + i*step) % m` for `i = 0, 1, ...`; stop with failure at the first
Empty slot (insertion candidate = first tombstone seen, else that empty slot);
stop with success at an Occupied slot holding the key; after `m` probes
return not-found with the first tombstone as candidate, else `-1`. -/
def findSlotSpec (bs : List ProbeSlot) (key : String) (h step m : Nat) :
    FindSlotResult :=
  match firstIdx (fun i => isStopB bs key (probeAt h step m i)) m 0 with
  | some i =>
      match slotAt bs (probeAt h step m i) with
      | .occupied _ _ =>
          ⟨true, (probeAt h step m i : Nat), i + 1,
            (List.range (i + 1)).map (probeAt h step m)⟩
      | _ =>
          ⟨false,
            (match firstIdx (fun j => isTombB bs (probeAt h step m j)) i 0 with
              | some j => ((probeAt h step m j : Nat) : Int)
              | none => ((probeAt h step m i : Nat) : Int)),
            i + 1, (List.range (i + 1)).map (probeAt h step m)⟩
  | none => ⟨false, faOf bs h step m m, m, (List.range m).map (probeAt h step m)⟩

theorem firstIdx_some {p : Nat → Bool} :
    ∀ {n s i : Nat}, firstIdx p n s = some i →
      s ≤ i ∧ i < s + n ∧ p i = true ∧ ∀ j, s ≤ j → j < i → p j = false := by
  intro n
  induction n with
  | zero => intro s i h; simp [firstIdx] at h
  | succ n ih =>
      intro s i h
      by_cases hp : p s
      · simp [firstIdx, hp] at h
        subst h
        exact ⟨le_refl _, by omega, hp, fun j h1 h2 => absurd h1 (by omega)⟩
      · simp [firstIdx, hp] at h
        obtain ⟨h1, h2, h3, h4⟩ := ih h
        refine ⟨by omega, by omega, h3, fun j hj1 hj2 => ?_⟩
        rcases Nat.eq_or_lt_of_le hj1 with rfl | hlt
        · exact Bool.of_not_eq_true hp
        · exact h4 j hlt hj2

theorem firstIdx_none {p : Nat → Bool} :
    ∀ {n s : Nat}, firstIdx p n s = none →
      ∀ j, s ≤ j → j < s + n → p j = false := by
  intro n
  induction n with
  | zero => intro s _ j h1 h2; omega
  | succ n ih =>
      intro s h j h1 h2
      by_cases hp : p s
      · simp [firstIdx, hp] at h
      · simp [firstIdx, hp] at h
        rcases Nat.eq_or_lt_of_le h1 with rfl | hlt
        · exact Bool.of_not_eq_true hp
        · exact ih h j hlt (by omega)

theorem firstIdx_isSome {p : Nat → Bool} :
    ∀ {n s : Nat}, (∃ j, s ≤ j ∧ j < s + n ∧ p j = true) →
      (firstIdx p n s).isSome := by
  intro n s h
  cases hfi : firstIdx p n s with
  | some i => rfl
  | none =>
      obtain ⟨j, h1, h2, h3⟩ := h
      have := firstIdx_none hfi j h1 h2
      simp [this] at h3

/-- Peeling the last scanned position off `firstIdx`. -/
theorem firstIdx_succ_last (p : Nat → Bool) :
    ∀ (n s : Nat), firstIdx p (n + 1) s =
      (match firstIdx p n s with
        | some j => some j
        | none => if p (s + n) then some (s + n) else none) := by
  intro n
  induction n with
  | zero => intro s; simp [firstIdx]
  | succ n ih =>
      intro s
      by_cases hp : p s
      · simp [firstIdx, hp]
      · have h1 : firstIdx p (n + 1 + 1) s = firstIdx p (n + 1) (s + 1) := by
          simp [firstIdx, hp]
        have h2 : firstIdx p (n + 1) s = firstIdx p n (s + 1) := by
          simp [firstIdx, hp]
        rw [h1, ih (s + 1), h2]
        have : s + 1 + n = s + (n + 1) := by omega
        rw [this]

theorem firstIdx_eq_some_of {p : Nat → Bool} {m i : Nat} (him : i < m)
    (hpi : p i = true) (hlt : ∀ j, j < i → p j = false) :
    firstIdx p m 0 = some i := by
  cases hfi : firstIdx p m 0 with
  | none =>
      have := firstIdx_none hfi i (Nat.zero_le _) (by omega)
      simp [this] at hpi
  | some j =>
      obtain ⟨_, _, hpj, hmin⟩ := firstIdx_some hfi
      rcases Nat.lt_trichotomy j i with hji | rfl | hij
      · have := hlt j hji
        simp [this] at hpj
      · rfl
      · have := hmin i (Nat.zero_le _) hij
        simp [this] at hpi

theorem faOf_zero (bs : List ProbeSlot) (h step m : Nat) :
    faOf bs h step m 0 = -1 := by
  simp [faOf, firstIdx]

theorem faOf_of_some {bs : List ProbeSlot} {h step m bound j : Nat}
    (hj : firstIdx (fun j => isTombB bs (probeAt h step m j)) bound 0 = some j) :
    faOf bs h step m bound = ((probeAt h step m j : Nat) : Int) := by
  simp only [faOf, hj]

theorem faOf_of_none {bs : List ProbeSlot} {h step m bound : Nat}
    (hj : firstIdx (fun j => isTombB bs (probeAt h step m j)) bound 0 = none) :
    faOf bs h step m bound = -1 := by
  simp only [faOf, hj]

theorem faOf_some_ne {bs : List ProbeSlot} {h step m bound j : Nat}
    (hj : firstIdx (fun j => isTombB bs (probeAt h step m j)) bound 0 = some j) :
    faOf bs h step m bound ≠ -1 := by
  simp only [faOf, hj]
  omega

theorem isStopB_of_empty {bs : List ProbeSlot} {j : Nat} (key : String)
    (h : slotAt bs j = .empty) : isStopB bs key j = true := by
  simp only [isStopB, h]

theorem isStopB_of_tomb {bs : List ProbeSlot} {j : Nat} (key : String)
    (h : slotAt bs j = .tombstone) : isStopB bs key j = false := by
  simp only [isStopB, h]

theorem isStopB_of_occ {bs : List ProbeSlot} {j : Nat} {k v : String} (key : String)
    (h : slotAt bs j = .occupied k v) : isStopB bs key j = decide (k = key) := by
  simp only [isStopB, h]

theorem isTombB_of_tomb {bs : List ProbeSlot} {j : Nat}
    (h : slotAt bs j = .tombstone) : isTombB bs j = true := by
  simp only [isTombB, h]

theorem isTombB_of_empty {bs : List ProbeSlot} {j : Nat}
    (h : slotAt bs j = .empty) : isTombB bs j = false := by
  simp only [isTombB, h]

theorem isTombB_of_occ {bs : List ProbeSlot} {j : Nat} {k v : String}
    (h : slotAt bs j = .occupied k v) : isTombB bs j = false := by
  simp only [isTombB, h]

/-- The single induction connecting the source loop `findSlotGo` to the
declarative `findSlotSpec`: at iteration `i` no earlier probe stopped, the
accumulated `firstAvailableIndex` encodes the first tombstone among the first
`i` probes, and the accumulators hold `i` probes. -/
theorem findSlotGo_spec_aux (bs : List ProbeSlot) (key : String) (h step m : Nat) :
    ∀ n, ∀ i, i + n = m →
      (∀ j, j < i → isStopB bs key (probeAt h step m j) = false) →
      findSlotGo bs key h step m n i (faOf bs h step m i) i
          ((List.range i).map (probeAt h step m)) =
        findSlotSpec bs key h step m := by
  intro n
  induction n with
  | zero =>
      intro i him hns
      have him' : i = m := by omega
      subst him'
      have hnone : firstIdx (fun j => isStopB bs key (probeAt h step i j)) i 0
          = none := by
        cases hfi : firstIdx (fun j => isStopB bs key (probeAt h step i j)) i 0 with
        | none => rfl
        | some j =>
            obtain ⟨_, hjm, hpj, _⟩ := firstIdx_some hfi
            have := hns j (by omega)
            simp [this] at hpj
      simp only [findSlotGo, findSlotSpec, hnone]
  | succ n ih =>
      intro i him hns
      have him' : i < m := by omega
      have hseq : (List.range i).map (probeAt h step m) ++ [probeAt h step m i]
          = (List.range (i + 1)).map (probeAt h step m) := by
        rw [List.range_succ, List.map_append]
        rfl
      cases hslot : slotAt bs (probeAt h step m i) with
      | empty =>
          have hstop := isStopB_of_empty key hslot
          have hfi := firstIdx_eq_some_of him' hstop hns
          cases hft : firstIdx (fun j => isTombB bs (probeAt h step m j)) i 0 with
          | some j =>
              have hfa := faOf_of_some hft
              have hne := faOf_some_ne hft
              simp only [findSlotGo, hslot]
              rw [if_neg hne, hfa]
              simp only [findSlotSpec, hfi, hft, hseq]
              rw [hslot]
          | none =>
              have hfa := faOf_of_none hft
              simp only [findSlotGo, hslot]
              rw [if_pos hfa]
              simp only [findSlotSpec, hfi, hft, hseq]
              rw [hslot]
      | tombstone =>
          have hstop := isStopB_of_tomb key hslot
          have htmb := isTombB_of_tomb hslot
          have hrw := firstIdx_succ_last
            (fun j => isTombB bs (probeAt h step m j)) i 0
          have hfa1 : (if faOf bs h step m i = -1
              then ((probeAt h step m i : Nat) : Int) else faOf bs h step m i)
              = faOf bs h step m (i + 1) := by
            cases hft : firstIdx (fun j => isTombB bs (probeAt h step m j)) i 0 with
            | some j =>
                rw [hft] at hrw
                simp only [Nat.zero_add] at hrw
                rw [if_neg (faOf_some_ne hft), faOf_of_some hft,
                  faOf_of_some hrw]
            | none =>
                rw [hft] at hrw
                simp only [Nat.zero_add, htmb, if_pos] at hrw
                rw [if_pos (faOf_of_none hft), faOf_of_some hrw]
          have hns1 : ∀ j, j < i + 1 → isStopB bs key (probeAt h step m j) = false := by
            intro j hj
            rcases Nat.lt_succ_iff_lt_or_eq.mp hj with hj2 | hj2
            · exact hns j hj2
            · rw [hj2]; exact hstop
          have hrec := ih (i + 1) (by omega) hns1
          simp only [findSlotGo, hslot]
          rw [hfa1, hseq]
          exact hrec
      | occupied k v =>
          by_cases hk : k = key
          · have hstop : isStopB bs key (probeAt h step m i) = true := by
              rw [isStopB_of_occ key hslot]
              simp [hk]
            have hfi := firstIdx_eq_some_of him' hstop hns
            simp only [findSlotGo, hslot, if_pos hk, findSlotSpec, hfi, hseq]
          · have hstop : isStopB bs key (probeAt h step m i) = false := by
              rw [isStopB_of_occ key hslot]
              simp [hk]
            have htmb := isTombB_of_occ hslot
            have hrw := firstIdx_succ_last
              (fun j => isTombB bs (probeAt h step m j)) i 0
            have hfa1 : faOf bs h step m i = faOf bs h step m (i + 1) := by
              cases hft : firstIdx (fun j => isTombB bs (probeAt h step m j)) i 0 with
              | some j =>
                  rw [hft] at hrw
                  simp only [Nat.zero_add] at hrw
                  rw [faOf_of_some hft, faOf_of_some hrw]
              | none =>
                  rw [hft] at hrw
                  simp only [Nat.zero_add, htmb, if_neg, Bool.false_eq_true,
                    not_false_eq_true] at hrw
                  rw [faOf_of_none hft, faOf_of_none hrw]
            have hns1 : ∀ j, j < i + 1 → isStopB bs key (probeAt h step m j) = false := by
              intro j hj
              rcases Nat.lt_succ_iff_lt_or_eq.mp hj with hj2 | hj2
              · exact hns j hj2
              · rw [hj2]; exact hstop
            have hrec := ih (i + 1) (by omega) hns1
            simp only [findSlotGo, hslot, if_neg hk]
            rw [hfa1, hseq]
            exact hrec

/-- `_findSlot` is exactly its declarative description, unconditionally. -/
theorem findSlotOf_eq_spec (ht : HashTable) (bs : List ProbeSlot) (key : String) :
    findSlotOf ht bs key =
      findSlotSpec bs key (hashIndex ht key) (effStep ht key) ht.tableSize := by
  have h0 := findSlotGo_spec_aux bs key (hashIndex ht key) (effStep ht key)
    ht.tableSize ht.tableSize 0 (by omega) (fun j hj => absurd hj (by omega))
  rw [faOf_zero] at h0
  simpa [findSlotOf] using h0

/-! ## Inversion lemmas for the declarative probe search -/

theorem firstIdx_eq_none_of {p : Nat → Bool} {n s : Nat}
    (hall : ∀ j, s ≤ j → j < s + n → p j = false) : firstIdx p n s = none := by
  cases hfi : firstIdx p n s with
  | none => rfl
  | some j =>
      obtain ⟨h1, h2, h3, _⟩ := firstIdx_some hfi
      rw [hall j h1 h2] at h3
      cases h3

theorem isTombB_true_iff {bs : List ProbeSlot} {j : Nat} :
    isTombB bs j = true ↔ slotAt bs j = .tombstone := by
  cases h : slotAt bs j
  · simp [isTombB_of_empty h, h]
  · simp [isTombB_of_tomb h, h]
  · simp [isTombB_of_occ h, h]

theorem slot_occ_of_notstop_nottomb {bs : List ProbeSlot} {key : String} {j : Nat}
    (hs : isStopB bs key j = false) (ht : isTombB bs j = false) :
    ∃ k v, slotAt bs j = .occupied k v ∧ k ≠ key := by
  cases hsl : slotAt bs j with
  | empty => rw [isStopB_of_empty key hsl] at hs; cases hs
  | tombstone => rw [isTombB_of_tomb hsl] at ht; cases ht
  | occupied k v =>
      rw [isStopB_of_occ key hsl] at hs
      exact ⟨k, v, rfl, of_decide_eq_false hs⟩

theorem slotAt_congr_isStopB {bs bs2 : List ProbeSlot} (key : String) {j : Nat}
    (h : slotAt bs j = slotAt bs2 j) : isStopB bs key j = isStopB bs2 key j := by
  simp only [isStopB, h]

/-- Inverting a successful search: the stop is the first stopping probe, and
the slot there holds the searched key. -/
theorem findSlotSpec_found_inv {bs : List ProbeSlot} {key : String} {h step m : Nat}
    (hf : (findSlotSpec bs key h step m).found = true) :
    ∃ i v, i < m ∧
      (findSlotSpec bs key h step m).index = ((probeAt h step m i : Nat) : Int) ∧
      slotAt bs (probeAt h step m i) = .occupied key v ∧
      (∀ j, j < i → isStopB bs key (probeAt h step m j) = false) := by
  cases hfi : firstIdx (fun i => isStopB bs key (probeAt h step m i)) m 0 with
  | none => simp [findSlotSpec, hfi] at hf
  | some i =>
      obtain ⟨_, him, hstop, hmin⟩ := firstIdx_some hfi
      cases hslot : slotAt bs (probeAt h step m i) with
      | empty => simp [findSlotSpec, hfi, hslot] at hf
      | tombstone => simp [findSlotSpec, hfi, hslot] at hf
      | occupied k v =>
          rw [isStopB_of_occ key hslot] at hstop
          have hk : k = key := of_decide_eq_true hstop
          subst hk
          refine ⟨i, v, by omega, ?_, hslot, fun j hj => hmin j (Nat.zero_le _) hj⟩
          simp only [findSlotSpec, hfi, hslot]

/-- Inverting an unsuccessful search that still reports an insertion slot:
the reported index is a probe position `ip` whose slot is Empty or Tombstone,
and every earlier probe hit an Occupied slot with a different key. -/
theorem findSlotSpec_avail_inv {bs : List ProbeSlot} {key : String} {h step m : Nat}
    (hf : (findSlotSpec bs key h step m).found = false)
    (hne : (findSlotSpec bs key h step m).index ≠ -1) :
    ∃ ip, ip < m ∧
      (findSlotSpec bs key h step m).index = ((probeAt h step m ip : Nat) : Int) ∧
      (slotAt bs (probeAt h step m ip) = .empty ∨
        slotAt bs (probeAt h step m ip) = .tombstone) ∧
      ∀ j, j < ip → isStopB bs key (probeAt h step m j) = false ∧
        isTombB bs (probeAt h step m j) = false := by
  cases hfi : firstIdx (fun i => isStopB bs key (probeAt h step m i)) m 0 with
  | some i =>
      obtain ⟨_, him, hstop, hmin⟩ := firstIdx_some hfi
      cases hslot : slotAt bs (probeAt h step m i) with
      | occupied k v => simp [findSlotSpec, hfi, hslot] at hf
      | tombstone => rw [isStopB_of_tomb key hslot] at hstop; cases hstop
      | empty =>
          cases hft : firstIdx (fun j => isTombB bs (probeAt h step m j)) i 0 with
          | some j0 =>
              obtain ⟨_, hj0i, htmb, htmin⟩ := firstIdx_some hft
              refine ⟨j0, by omega, ?_, Or.inr (isTombB_true_iff.mp htmb), ?_⟩
              · simp only [findSlotSpec, hfi, hslot, hft]
              · intro j hj
                exact ⟨hmin j (Nat.zero_le _) (by omega),
                  htmin j (Nat.zero_le _) hj⟩
          | none =>
              refine ⟨i, by omega, ?_, Or.inl hslot, ?_⟩
              · simp only [findSlotSpec, hfi, hslot, hft]
              · intro j hj
                exact ⟨hmin j (Nat.zero_le _) hj,
                  firstIdx_none hft j (Nat.zero_le _) (by omega)⟩
  | none =>
      cases hft : firstIdx (fun j => isTombB bs (probeAt h step m j)) m 0 with
      | some j0 =>
          obtain ⟨_, hj0m, htmb, htmin⟩ := firstIdx_some hft
          refine ⟨j0, by omega, ?_, Or.inr (isTombB_true_iff.mp htmb), ?_⟩
          · simp only [findSlotSpec, hfi, faOf, hft]
          · intro j hj
            exact ⟨firstIdx_none hfi j (Nat.zero_le _) (by omega),
              htmin j (Nat.zero_le _) hj⟩
      | none =>
          have : (findSlotSpec bs key h step m).index = -1 := by
            simp only [findSlotSpec, hfi, faOf, hft]
          exact absurd this hne

/-- The search reports a totally full cycle (`found = false`, `index = -1`)
exactly when every probe of the full cycle hits an Occupied slot holding a
different key. -/
theorem findSlotSpec_full_iff {bs : List ProbeSlot} {key : String} {h step m : Nat} :
    ((findSlotSpec bs key h step m).found = false ∧
        (findSlotSpec bs key h step m).index = -1) ↔
      ∀ i, i < m → ∃ k v, slotAt bs (probeAt h step m i) = .occupied k v ∧
        k ≠ key := by
  constructor
  · rintro ⟨hf, hidx⟩
    cases hfi : firstIdx (fun i => isStopB bs key (probeAt h step m i)) m 0 with
    | some i =>
        obtain ⟨_, him, hstop, hmin⟩ := firstIdx_some hfi
        cases hslot : slotAt bs (probeAt h step m i) with
        | occupied k v => simp [findSlotSpec, hfi, hslot] at hf
        | tombstone => rw [isStopB_of_tomb key hslot] at hstop; cases hstop
        | empty =>
            exfalso
            cases hft : firstIdx (fun j => isTombB bs (probeAt h step m j)) i 0 with
            | some j0 =>
                simp only [findSlotSpec, hfi, hslot, hft] at hidx
                omega
            | none =>
                simp only [findSlotSpec, hfi, hslot, hft] at hidx
                omega
    | none =>
        cases hft : firstIdx (fun j => isTombB bs (probeAt h step m j)) m 0 with
        | some j0 =>
            simp only [findSlotSpec, hfi, faOf, hft] at hidx
            omega
        | none =>
            intro i hi
            exact slot_occ_of_notstop_nottomb
              (firstIdx_none hfi i (Nat.zero_le _) (by omega))
              (firstIdx_none hft i (Nat.zero_le _) (by omega))
  · intro hall
    have hstops : firstIdx (fun i => isStopB bs key (probeAt h step m i)) m 0
        = none := by
      apply firstIdx_eq_none_of
      intro j _ hj
      obtain ⟨k, v, hsl, hk⟩ := hall j (by omega)
      rw [isStopB_of_occ key hsl]
      exact decide_eq_false hk
    have htombs : firstIdx (fun j => isTombB bs (probeAt h step m j)) m 0
        = none := by
      apply firstIdx_eq_none_of
      intro j _ hj
      obtain ⟨k, v, hsl, hk⟩ := hall j (by omega)
      exact isTombB_of_occ hsl
    constructor
    · simp only [findSlotSpec, hstops]
    · simp only [findSlotSpec, hstops, faOf, htombs]

/-! ## Updating one slot -/

theorem slotAt_set_self {bs : List ProbeSlot} {j : Nat} (x : ProbeSlot)
    (h : j < bs.length) : slotAt (bs.set j x) j = x := by
  simp [slotAt, List.getD_eq_getElem?_getD, List.getElem?_set_self, h]

theorem slotAt_set_ne {bs : List ProbeSlot} {j j2 : Nat} (x : ProbeSlot)
    (h : j ≠ j2) : slotAt (bs.set j x) j2 = slotAt bs j2 := by
  simp [slotAt, List.getD_eq_getElem?_getD, List.getElem?_set_ne, h]

/-- Writing the searched key at the slot `_findSlot` reported (its own slot on
a hit, the first available slot on a miss with room) makes the very next
search find the key there with the written value. -/
theorem findSlotSpec_set_get {bs : List ProbeSlot} {key : String} {h step m : Nat}
    (value : String) (hm : 0 < m) (hlen : bs.length = m)
    (hcase : (findSlotSpec bs key h step m).found = true ∨
      ((findSlotSpec bs key h step m).found = false ∧
        (findSlotSpec bs key h step m).index ≠ -1)) :
    (findSlotSpec (bs.set (findSlotSpec bs key h step m).index.toNat
        (.occupied key value)) key h step m).found = true ∧
    slotAt (bs.set (findSlotSpec bs key h step m).index.toNat
        (.occupied key value))
      (findSlotSpec (bs.set (findSlotSpec bs key h step m).index.toNat
        (.occupied key value)) key h step m).index.toNat = .occupied key value := by
  rcases hcase with hf | ⟨hf, hne⟩
  · obtain ⟨i, v, him, hidx, hslot, hmin⟩ := findSlotSpec_found_inv hf
    set t := probeAt h step m i with htdef
    have htoNat : (findSlotSpec bs key h step m).index.toNat = t := by
      rw [hidx]; omega
    rw [htoNat]
    have htlen : t < bs.length := by
      rw [hlen, htdef]; exact Nat.mod_lt _ hm
    have hnew : slotAt (bs.set t (.occupied key value)) t = .occupied key value :=
      slotAt_set_self _ htlen
    have hstops : ∀ j, j < i →
        isStopB (bs.set t (.occupied key value)) key (probeAt h step m j) = false := by
      intro j hj
      have hne2 : t ≠ probeAt h step m j := by
        intro he
        have := hmin j hj
        rw [← he, isStopB_of_occ key hslot] at this
        simp at this
      rw [slotAt_congr_isStopB key (slotAt_set_ne _ hne2)]
      exact hmin j hj
    have hstopi : isStopB (bs.set t (.occupied key value)) key t = true := by
      rw [isStopB_of_occ key hnew]
      simp
    have hfi := firstIdx_eq_some_of him hstopi hstops
    constructor
    · simp only [findSlotSpec, hfi, hnew]
    · simp only [findSlotSpec, hfi, hnew]
      rw [htoNat.symm, htoNat]
      rw [show (((t : Nat) : Int)).toNat = t by omega]
      exact hnew
  · obtain ⟨ip, hipm, hidx, hslot, hmin⟩ := findSlotSpec_avail_inv hf hne
    set t := probeAt h step m ip with htdef
    have htoNat : (findSlotSpec bs key h step m).index.toNat = t := by
      rw [hidx]; omega
    rw [htoNat]
    have htlen : t < bs.length := by
      rw [hlen, htdef]; exact Nat.mod_lt _ hm
    have hnew : slotAt (bs.set t (.occupied key value)) t = .occupied key value :=
      slotAt_set_self _ htlen
    have hstops : ∀ j, j < ip →
        isStopB (bs.set t (.occupied key value)) key (probeAt h step m j) = false := by
      intro j hj
      obtain ⟨k, v, hsl, hk⟩ := slot_occ_of_notstop_nottomb (hmin j hj).1 (hmin j hj).2
      have hne2 : t ≠ probeAt h step m j := by
        intro he
        rcases hslot with hsl2 | hsl2 <;> rw [← he, hsl2] at hsl <;> cases hsl
      rw [slotAt_congr_isStopB key (slotAt_set_ne _ hne2)]
      exact (hmin j hj).1
    have hstopi : isStopB (bs.set t (.occupied key value)) key t = true := by
      rw [isStopB_of_occ key hnew]
      simp
    have hfi := firstIdx_eq_some_of hipm hstopi hstops
    constructor
    · simp only [findSlotSpec, hfi, hnew]
    · simp only [findSlotSpec, hfi, hnew]
      rw [show (((t : Nat) : Int)).toNat = t by omega]
      exact hnew

/-! ## Reducing the operations under shape hypotheses -/

/-- Length of the bucket storage. -/
def bucketsLen : Buckets → Nat
  | .chains bs => bs.length
  | .slots bs => bs.length

theorem getD_set_self {α : Type} (l : List α) (i : Nat) (x d : α)
    (h : i < l.length) : (l.set i x).getD i d = x := by
  simp [List.getD_eq_getElem?_getD, List.getElem?_set_self, h]

theorem getD_set_ne {α : Type} (l : List α) {i j : Nat} (x d : α)
    (h : i ≠ j) : (l.set i x).getD j d = l.getD j d := by
  simp [List.getD_eq_getElem?_getD, List.getElem?_set_ne, h]

theorem set_probing_eq (ht : HashTable) (key value : String)
    (bs : List ProbeSlot)
    (hcol : ht.collisionResolution = .LinearProbing ∨
      ht.collisionResolution = .DoubleHashing)
    (hb : ht.buckets = .slots bs)
    (r0 : FindSlotResult)
    (hr0 : findSlotSpec bs key (hashIndex ht key) (effStep ht key)
      ht.tableSize = r0) :
    ht.set key value =
      (if r0.found then
        some (⟨true, r0.index, r0.probes, r0.probeSequence⟩,
          { ht with buckets := .slots (bs.set r0.index.toNat (.occupied key value)) })
      else if r0.index = -1 then none
      else
        some (⟨false, r0.index, r0.probes, r0.probeSequence⟩,
          { ht with buckets := .slots (bs.set r0.index.toNat (.occupied key value)), itemCount := ht.itemCount + 1 })) := by
  rcases hcol with hcol | hcol <;>
    (unfold HashTable.set
     rw [hcol, hb]
     dsimp only
     rw [findSlotOf_eq_spec, hr0])

theorem set_chaining_eq (ht : HashTable) (key value : String)
    (bs : List (List (String × String)))
    (hcol : ht.collisionResolution = .Chaining)
    (hb : ht.buckets = .chains bs) :
    ht.set key value =
      some (⟨(chainSet (bs.getD (hashIndex ht key) []) key value).1,
          ((hashIndex ht key : Nat) : Int),
          if (chainSet (bs.getD (hashIndex ht key) []) key value).1
            then (bs.getD (hashIndex ht key) []).length
            else (bs.getD (hashIndex ht key) []).length + 1,
          [hashIndex ht key]⟩,
        { ht with buckets := .chains (bs.set (hashIndex ht key) (chainSet (bs.getD (hashIndex ht key) []) key value).2), itemCount := if (chainSet (bs.getD (hashIndex ht key) []) key value).1 then ht.itemCount else ht.itemCount + 1 }) := by
  unfold HashTable.set
  rw [hcol, hb]

theorem get_chaining_value (ht : HashTable) (key : String)
    (bs : List (List (String × String)))
    (hcol : ht.collisionResolution = .Chaining)
    (hb : ht.buckets = .chains bs) :
    (ht.get key).value =
      ((bs.getD (hashIndex ht key) []).find? (fun e => e.1 = key)).map
        Prod.snd := by
  unfold HashTable.get
  rw [hcol, hb]
  dsimp only
  cases hfind : (bs.getD (hashIndex ht key) []).find? (fun e => e.1 = key) with
  | some e => rfl
  | none => rfl

theorem get_probing_found (ht : HashTable) (key : String) (bs : List ProbeSlot)
    {k v : String}
    (hcol : ht.collisionResolution = .LinearProbing ∨
      ht.collisionResolution = .DoubleHashing)
    (hb : ht.buckets = .slots bs)
    (hf : (findSlotSpec bs key (hashIndex ht key) (effStep ht key)
        ht.tableSize).found = true)
    (hs : slotAt bs (findSlotSpec bs key (hashIndex ht key) (effStep ht key)
        ht.tableSize).index.toNat = .occupied k v) :
    (ht.get key).value = some v := by
  rcases hcol with hcol | hcol <;>
    (unfold HashTable.get
     rw [hcol, hb]
     dsimp only
     rw [findSlotOf_eq_spec]
     simp only [hf, if_pos, hs])

theorem get_probing_notfound (ht : HashTable) (key : String) (bs : List ProbeSlot)
    (hcol : ht.collisionResolution = .LinearProbing ∨
      ht.collisionResolution = .DoubleHashing)
    (hb : ht.buckets = .slots bs)
    (hf : (findSlotSpec bs key (hashIndex ht key) (effStep ht key)
        ht.tableSize).found = false) :
    (ht.get key).value = none := by
  rcases hcol with hcol | hcol <;>
    (unfold HashTable.get
     rw [hcol, hb]
     dsimp only
     rw [findSlotOf_eq_spec]
     simp only [hf]
     rfl)

theorem remove_probing_eq (ht : HashTable) (key : String) (bs : List ProbeSlot)
    (hcol : ht.collisionResolution = .LinearProbing ∨
      ht.collisionResolution = .DoubleHashing)
    (hb : ht.buckets = .slots bs)
    (r0 : FindSlotResult)
    (hr0 : findSlotSpec bs key (hashIndex ht key) (effStep ht key)
      ht.tableSize = r0) :
    ht.remove key =
      (if r0.found then
        (⟨true, some r0.index.toNat, r0.probes, r0.probeSequence⟩,
          { ht with buckets := .slots (bs.set r0.index.toNat .tombstone), itemCount := ht.itemCount - 1 })
      else (⟨false, none, r0.probes, r0.probeSequence⟩, ht)) := by
  rcases hcol with hcol | hcol <;>
    (unfold HashTable.remove
     rw [hcol, hb]
     dsimp only
     rw [findSlotOf_eq_spec, hr0])

theorem remove_chaining_eq (ht : HashTable) (key : String)
    (bs : List (List (String × String)))
    (hcol : ht.collisionResolution = .Chaining)
    (hb : ht.buckets = .chains bs) :
    ht.remove key =
      (match chainRemove (bs.getD (hashIndex ht key) []) key with
      | some newBucket =>
          (⟨true, some (hashIndex ht key),
              (bs.getD (hashIndex ht key) []).length, [hashIndex ht key]⟩,
            { ht with buckets := .chains (bs.set (hashIndex ht key) newBucket), itemCount := ht.itemCount - 1 })
      | none =>
          (⟨false, none, (bs.getD (hashIndex ht key) []).length,
            [hashIndex ht key]⟩, ht)) := by
  unfold HashTable.remove
  rw [hcol, hb]

/-- `set` leaves every field of the table except `buckets` and `itemCount`
unchanged; stated for the record updates it actually produces. -/
theorem update_fields (ht : HashTable) (b : Buckets) (ic : Nat) :
    ({ ht with buckets := b, itemCount := ic } : HashTable).tableSize
        = ht.tableSize ∧
      ({ ht with buckets := b, itemCount := ic } : HashTable).hashingStrategy
        = ht.hashingStrategy ∧
      ({ ht with buckets := b, itemCount := ic } : HashTable).collisionResolution
        = ht.collisionResolution := ⟨rfl, rfl, rfl⟩

/-- `hashIndex` ignores `buckets` and `itemCount`. -/
theorem hashIndex_update (ht : HashTable) (b : Buckets) (ic : Nat)
    (key : String) :
    hashIndex { ht with buckets := b, itemCount := ic } key
      = hashIndex ht key := rfl

/-- `effStep` ignores `buckets` and `itemCount`. -/
theorem effStep_update (ht : HashTable) (b : Buckets) (ic : Nat)
    (key : String) :
    effStep { ht with buckets := b, itemCount := ic } key
      = effStep ht key := rfl

/-! ## Round-trip: set then get -/

theorem hashIndex_lt (ht : HashTable) (key : String) (hm : 0 < ht.tableSize) :
    hashIndex ht key < ht.tableSize := by
  unfold hashIndex
  cases ht.hashingStrategy
  · exact Nat.mod_lt _ hm
  · exact Nat.mod_lt _ hm

theorem chainSet_find (bucket : List (String × String)) (key value : String) :
    ((chainSet bucket key value).2).find? (fun e => e.1 = key)
      = some (key, value) := by
  induction bucket with
  | nil => simp [chainSet]
  | cons e rest ih =>
      obtain ⟨k, v⟩ := e
      by_cases hk : k = key
      · subst hk
        simp [chainSet]
      · simp [chainSet, hk, ih]

/-- Core round-trip lemma, shared by the claim theorems: whenever `set`
succeeds, an immediate `get` of the same key returns the written value, for
every policy pair. -/
theorem set_then_get (ht : HashTable) (key value : String)
    (hm : 0 < ht.tableSize) (hlen : bucketsLen ht.buckets = ht.tableSize)
    (r : SetResult) (ht2 : HashTable)
    (hset : ht.set key value = some (r, ht2)) :
    (ht2.get key).value = some value := by
  cases hcol : ht.collisionResolution with
  | Chaining =>
      cases hb : ht.buckets with
      | slots bs =>
          unfold HashTable.set at hset
          rw [hcol, hb] at hset
          simp at hset
      | chains bs =>
          rw [set_chaining_eq ht key value bs hcol hb] at hset
          rw [Option.some_inj] at hset
          have hht2 : ht2 = { ht with buckets := .chains (bs.set (hashIndex ht key) (chainSet (bs.getD (hashIndex ht key) []) key value).2), itemCount := if (chainSet (bs.getD (hashIndex ht key) []) key value).1 then ht.itemCount else ht.itemCount + 1 } :=
            (congrArg Prod.snd hset).symm
          have hcol2 : ht2.collisionResolution = .Chaining := by
            rw [hht2]; exact hcol
          have hb2 : ht2.buckets = .chains (bs.set (hashIndex ht key) (chainSet (bs.getD (hashIndex ht key) []) key value).2) := by
            rw [hht2]
          have hh : hashIndex ht2 key = hashIndex ht key := by rw [hht2]; rfl
          rw [get_chaining_value ht2 key _ hcol2 hb2, hh]
          have hilt : hashIndex ht key < bs.length := by
            have h1 := hashIndex_lt ht key hm
            rw [hb] at hlen
            simp only [bucketsLen] at hlen
            omega
          rw [getD_set_self _ _ _ _ hilt, chainSet_find]
          rfl
  | LinearProbing =>
      cases hb : ht.buckets with
      | chains bs =>
          unfold HashTable.set at hset
          rw [hcol, hb] at hset
          simp at hset
      | slots bs =>
          have hlen2 : bs.length = ht.tableSize := by
            rw [hb] at hlen
            simpa [bucketsLen] using hlen
          rw [set_probing_eq ht key value bs (Or.inl hcol) hb _ rfl] at hset
          cases hf : (findSlotSpec bs key (hashIndex ht key) (effStep ht key)
              ht.tableSize).found with
          | true =>
              rw [if_pos hf] at hset
              rw [Option.some_inj] at hset
              have hht2 : ht2 = { ht with buckets := .slots (bs.set (findSlotSpec bs key (hashIndex ht key) (effStep ht key) ht.tableSize).index.toNat (.occupied key value)) } :=
                (congrArg Prod.snd hset).symm
              obtain ⟨hf2, hs2⟩ := findSlotSpec_set_get value hm hlen2 (Or.inl hf)
              have hcol2 : ht2.collisionResolution = .LinearProbing := by
                rw [hht2]; exact hcol
              have hb2 : ht2.buckets = .slots (bs.set (findSlotSpec bs key (hashIndex ht key) (effStep ht key) ht.tableSize).index.toNat (.occupied key value)) := by
                rw [hht2]
              have hh : hashIndex ht2 key = hashIndex ht key := by rw [hht2]; rfl
              have he : effStep ht2 key = effStep ht key := by rw [hht2]; rfl
              have hts : ht2.tableSize = ht.tableSize := by rw [hht2]
              refine @get_probing_found ht2 key _ key value (Or.inl hcol2) hb2 ?_ ?_
              · rw [hh, he, hts]; exact hf2
              · rw [hh, he, hts]; exact hs2
          | false =>
              rw [if_neg (by simp [hf])] at hset
              by_cases hidx : (findSlotSpec bs key (hashIndex ht key)
                  (effStep ht key) ht.tableSize).index = -1
              · rw [if_pos hidx] at hset
                cases hset
              · rw [if_neg hidx] at hset
                rw [Option.some_inj] at hset
                have hht2 : ht2 = { ht with buckets := .slots (bs.set (findSlotSpec bs key (hashIndex ht key) (effStep ht key) ht.tableSize).index.toNat (.occupied key value)), itemCount := ht.itemCount + 1 } :=
                  (congrArg Prod.snd hset).symm
                obtain ⟨hf2, hs2⟩ := findSlotSpec_set_get value hm hlen2
                  (Or.inr ⟨hf, hidx⟩)
                have hcol2 : ht2.collisionResolution = .LinearProbing := by
                  rw [hht2]; exact hcol
                have hb2 : ht2.buckets = .slots (bs.set (findSlotSpec bs key (hashIndex ht key) (effStep ht key) ht.tableSize).index.toNat (.occupied key value)) := by
                  rw [hht2]
                have hh : hashIndex ht2 key = hashIndex ht key := by rw [hht2]; rfl
                have he : effStep ht2 key = effStep ht key := by rw [hht2]; rfl
                have hts : ht2.tableSize = ht.tableSize := by rw [hht2]
                refine @get_probing_found ht2 key _ key value (Or.inl hcol2) hb2 ?_ ?_
                · rw [hh, he, hts]; exact hf2
                · rw [hh, he, hts]; exact hs2
  | DoubleHashing =>
      cases hb : ht.buckets with
      | chains bs =>
          unfold HashTable.set at hset
          rw [hcol, hb] at hset
          simp at hset
      | slots bs =>
          have hlen2 : bs.length = ht.tableSize := by
            rw [hb] at hlen
            simpa [bucketsLen] using hlen
          rw [set_probing_eq ht key value bs (Or.inr hcol) hb _ rfl] at hset
          cases hf : (findSlotSpec bs key (hashIndex ht key) (effStep ht key)
              ht.tableSize).found with
          | true =>
              rw [if_pos hf] at hset
              rw [Option.some_inj] at hset
              have hht2 : ht2 = { ht with buckets := .slots (bs.set (findSlotSpec bs key (hashIndex ht key) (effStep ht key) ht.tableSize).index.toNat (.occupied key value)) } :=
                (congrArg Prod.snd hset).symm
              obtain ⟨hf2, hs2⟩ := findSlotSpec_set_get value hm hlen2 (Or.inl hf)
              have hcol2 : ht2.collisionResolution = .DoubleHashing := by
                rw [hht2]; exact hcol
              have hb2 : ht2.buckets = .slots (bs.set (findSlotSpec bs key (hashIndex ht key) (effStep ht key) ht.tableSize).index.toNat (.occupied key value)) := by
                rw [hht2]
              have hh : hashIndex ht2 key = hashIndex ht key := by rw [hht2]; rfl
              have he : effStep ht2 key = effStep ht key := by rw [hht2]; rfl
              have hts : ht2.tableSize = ht.tableSize := by rw [hht2]
              refine @get_probing_found ht2 key _ key value (Or.inr hcol2) hb2 ?_ ?_
              · rw [hh, he, hts]; exact hf2
              · rw [hh, he, hts]; exact hs2
          | false =>
              rw [if_neg (by simp [hf])] at hset
              by_cases hidx : (findSlotSpec bs key (hashIndex ht key)
                  (effStep ht key) ht.tableSize).index = -1
              · rw [if_pos hidx] at hset
                cases hset
              · rw [if_neg hidx] at hset
                rw [Option.some_inj] at hset
                have hht2 : ht2 = { ht with buckets := .slots (bs.set (findSlotSpec bs key (hashIndex ht key) (effStep ht key) ht.tableSize).index.toNat (.occupied key value)), itemCount := ht.itemCount + 1 } :=
                  (congrArg Prod.snd hset).symm
                obtain ⟨hf2, hs2⟩ := findSlotSpec_set_get value hm hlen2
                  (Or.inr ⟨hf, hidx⟩)
                have hcol2 : ht2.collisionResolution = .DoubleHashing := by
                  rw [hht2]; exact hcol
                have hb2 : ht2.buckets = .slots (bs.set (findSlotSpec bs key (hashIndex ht key) (effStep ht key) ht.tableSize).index.toNat (.occupied key value)) := by
                  rw [hht2]
                have hh : hashIndex ht2 key = hashIndex ht key := by rw [hht2]; rfl
                have he : effStep ht2 key = effStep ht key := by rw [hht2]; rfl
                have hts : ht2.tableSize = ht.tableSize := by rw [hht2]
                refine @get_probing_found ht2 key _ key value (Or.inr hcol2) hb2 ?_ ?_
                · rw [hh, he, hts]; exact hf2
                · rw [hh, he, hts]; exact hs2

/-- Convenience for concrete scenarios: the table after a `set`, or the
unchanged table if `set` overflowed. -/
def setD (ht : HashTable) (k v : String) : HashTable :=
  ((ht.set k v).map Prod.snd).getD ht

/-- C1: for every key `k` and value `v`, and every table state (any hashing
strategy, any collision resolution) in which `set(k, v)` succeeds, a `get(k)`
performed immediately after (no resize or strategy change in between) returns
the value `v`. -/
theorem C1_set_get_roundtrip (ht : HashTable) (key value : String)
    (hm : 0 < ht.tableSize) (hlen : bucketsLen ht.buckets = ht.tableSize)
    (r : SetResult) (ht2 : HashTable)
    (hset : ht.set key value = some (r, ht2)) :
    (ht2.get key).value = some value :=
  set_then_get ht key value hm hlen r ht2 hset

/-- Witness for C1 on a concrete linear-probing table. -/
theorem C1_set_get_roundtrip_witness :
    0 < (create 5 .Simple .LinearProbing 0 0).tableSize ∧
    bucketsLen (create 5 .Simple .LinearProbing 0 0).buckets
      = (create 5 .Simple .LinearProbing 0 0).tableSize ∧
    ((create 5 .Simple .LinearProbing 0 0).set "a" "1").map
      (fun p => (p.2.get "a").value) = some (some "1") := by
  refine ⟨by decide, by decide, ?_⟩
  have hs : ((create 5 .Simple .LinearProbing 0 0).set "a" "1").isSome = true := by
    decide
  obtain ⟨p, hp⟩ := Option.isSome_iff_exists.mp hs
  rw [hp]
  exact congrArg some
    (C1_set_get_roundtrip (create 5 .Simple .LinearProbing 0 0) "a" "1"
      (by decide) (by decide) p.1 p.2 (by rw [hp]))

/-! ## The effective probe step -/

theorem hash2_pos (ht : HashTable) (key : String) : 1 ≤ hash2 ht key := by
  unfold hash2
  split
  · omega
  · have : keyToInteger ht.universal_p key % ht.double_hashing_R
        < ht.double_hashing_R := Nat.mod_lt _ (by omega)
    omega

theorem hash2_le_R (ht : HashTable) (key : String)
    (hR : 0 < ht.double_hashing_R) : hash2 ht key ≤ ht.double_hashing_R := by
  unfold hash2
  split
  · omega
  · omega

theorem effStep_eq_hash2 (ht : HashTable) (key : String)
    (hcol : ht.collisionResolution = .DoubleHashing)
    (hR : 0 < ht.double_hashing_R)
    (hRm : ht.double_hashing_R < ht.tableSize) :
    effStep ht key = hash2 ht key := by
  have h1 := hash2_pos ht key
  have h2 := hash2_le_R ht key hR
  unfold effStep
  rw [hcol, if_pos rfl, if_neg (by omega)]

theorem effStep_eq_one (ht : HashTable) (key : String)
    (hcol : ht.collisionResolution ≠ .DoubleHashing) :
    effStep ht key = 1 := by
  unfold effStep
  rw [if_neg hcol]

/-- C2: on open addressing, `_findSlot` probes `(initialIndex + i*step) mod
tableSize` for `i = 0 .. tableSize-1` (`step = 1` for linear probing,
`step = hash2(key)` for double hashing); it stops with failure at the first
Empty slot, records the first Tombstone seen as the insertion candidate while
continuing, stops with success at an Occupied slot holding the key, and after
`tableSize` probes with no Empty or match returns not-found with the first
tombstone index as candidate if one exists, else `-1`.  `findSlotSpec` is
that description verbatim, and `_findSlot` equals it. -/
theorem C2_findSlot_matches_spec (ht : HashTable) (key : String)
    (bs : List ProbeSlot)
    (hR : ht.collisionResolution = .DoubleHashing →
      0 < ht.double_hashing_R ∧ ht.double_hashing_R < ht.tableSize) :
    findSlotOf ht bs key =
      findSlotSpec bs key (hashIndex ht key)
        (if ht.collisionResolution = .DoubleHashing then hash2 ht key else 1)
        ht.tableSize := by
  rw [findSlotOf_eq_spec]
  by_cases hcol : ht.collisionResolution = .DoubleHashing
  · obtain ⟨h1, h2⟩ := hR hcol
    rw [effStep_eq_hash2 ht key hcol h1 h2, if_pos hcol]
  · rw [effStep_eq_one ht key hcol, if_neg hcol]

/-- Witness for C2 on a concrete double-hashing table. -/
theorem C2_findSlot_matches_spec_witness :
    ((create 7 .Simple .DoubleHashing 0 0).collisionResolution
        = .DoubleHashing →
      0 < (create 7 .Simple .DoubleHashing 0 0).double_hashing_R ∧
        (create 7 .Simple .DoubleHashing 0 0).double_hashing_R
          < (create 7 .Simple .DoubleHashing 0 0).tableSize) ∧
    findSlotOf (create 7 .Simple .DoubleHashing 0 0)
        [ProbeSlot.empty, ProbeSlot.empty, ProbeSlot.empty, ProbeSlot.empty,
          ProbeSlot.empty, ProbeSlot.empty, ProbeSlot.empty] "a" =
      findSlotSpec [ProbeSlot.empty, ProbeSlot.empty, ProbeSlot.empty,
          ProbeSlot.empty, ProbeSlot.empty, ProbeSlot.empty, ProbeSlot.empty] "a"
        (hashIndex (create 7 .Simple .DoubleHashing 0 0) "a")
        (if (create 7 .Simple .DoubleHashing 0 0).collisionResolution
            = .DoubleHashing
          then hash2 (create 7 .Simple .DoubleHashing 0 0) "a" else 1)
        (create 7 .Simple .DoubleHashing 0 0).tableSize := by
  refine ⟨by decide, ?_⟩
  exact C2_findSlot_matches_spec (create 7 .Simple .DoubleHashing 0 0) "a" _
    (fun _ => by constructor <;> decide)

/-! ## Membership in the live entries -/

theorem chainRemove_eq_none (bucket : List (String × String)) (key : String)
    (habs : key ∉ bucket.map Prod.fst) : chainRemove bucket key = none := by
  induction bucket with
  | nil => rfl
  | cons e rest ih =>
      obtain ⟨k, v⟩ := e
      simp only [List.map_cons, List.mem_cons] at habs
      push_neg at habs
      unfold chainRemove
      rw [if_neg (by exact fun h => habs.1 h.symm), ih habs.2]
      rfl

theorem slot_mem_collect {bs : List ProbeSlot} {j : Nat} {k v : String}
    (h : slotAt bs j = .occupied k v) :
    (k, v) ∈ collectItems (.slots bs) := by
  by_cases hj : j < bs.length
  · have hsl : bs[j] = .occupied k v := by
      unfold slotAt at h
      rwa [List.getD_eq_getElem?_getD, List.getElem?_eq_getElem hj,
        Option.getD_some] at h
    have hmem : ProbeSlot.occupied k v ∈ bs := hsl ▸ List.getElem_mem hj
    unfold collectItems
    exact List.mem_filterMap.mpr ⟨ProbeSlot.occupied k v, hmem, rfl⟩
  · exfalso
    unfold slotAt at h
    rw [List.getD_eq_getElem?_getD, List.getElem?_eq_none (by omega)] at h
    cases h

theorem chain_mem_collect {bs : List (List (String × String))} {i : Nat}
    {e : String × String} (h : e ∈ bs.getD i []) :
    e ∈ collectItems (.chains bs) := by
  by_cases hi : i < bs.length
  · rw [List.getD_eq_getElem?_getD, List.getElem?_eq_getElem hi,
      Option.getD_some] at h
    unfold collectItems
    exact List.mem_flatten.mpr ⟨bs[i], List.getElem_mem hi, h⟩
  · rw [List.getD_eq_getElem?_getD, List.getElem?_eq_none (by omega)] at h
    cases h

/-- C9: for every key (present or absent) and every collision policy, when
the key is not a live entry, `remove` returns `success = false`,
`finalIndex = null`, and the table state after the call is exactly the state
before it (all buckets, counts, sizes and parameters included). -/
theorem C9_remove_absent_noop (ht : HashTable) (key : String)
    (habs : key ∉ (collectItems ht.buckets).map Prod.fst) :
    (ht.remove key).1.success = false ∧ (ht.remove key).1.finalIndex = none ∧
      (ht.remove key).2 = ht := by
  cases hcol : ht.collisionResolution with
  | Chaining =>
      cases hb : ht.buckets with
      | slots bs =>
          unfold HashTable.remove
          rw [hcol, hb]
          exact ⟨rfl, rfl, rfl⟩
      | chains bs =>
          rw [hb] at habs
          rw [remove_chaining_eq ht key bs hcol hb]
          have hnone : chainRemove (bs.getD (hashIndex ht key) []) key = none := by
            apply chainRemove_eq_none
            intro hmem
            obtain ⟨e, hme, hek⟩ := List.mem_map.mp hmem
            exact habs (List.mem_map.mpr ⟨e, chain_mem_collect hme, hek⟩)
          rw [hnone]
          exact ⟨rfl, rfl, rfl⟩
  | LinearProbing =>
      cases hb : ht.buckets with
      | chains bs =>
          unfold HashTable.remove
          rw [hcol, hb]
          exact ⟨rfl, rfl, rfl⟩
      | slots bs =>
          rw [hb] at habs
          rw [remove_probing_eq ht key bs (Or.inl hcol) hb _ rfl]
          have hf : (findSlotSpec bs key (hashIndex ht key) (effStep ht key)
              ht.tableSize).found = false := by
            cases hff : (findSlotSpec bs key (hashIndex ht key) (effStep ht key)
                ht.tableSize).found with
            | false => rfl
            | true =>
                obtain ⟨i, v, _, _, hslot, _⟩ := findSlotSpec_found_inv hff
                exact absurd (List.mem_map.mpr ⟨(key, v), slot_mem_collect hslot,
                  rfl⟩) habs
          rw [if_neg (by simp [hf])]
          exact ⟨rfl, rfl, rfl⟩
  | DoubleHashing =>
      cases hb : ht.buckets with
      | chains bs =>
          unfold HashTable.remove
          rw [hcol, hb]
          exact ⟨rfl, rfl, rfl⟩
      | slots bs =>
          rw [hb] at habs
          rw [remove_probing_eq ht key bs (Or.inr hcol) hb _ rfl]
          have hf : (findSlotSpec bs key (hashIndex ht key) (effStep ht key)
              ht.tableSize).found = false := by
            cases hff : (findSlotSpec bs key (hashIndex ht key) (effStep ht key)
                ht.tableSize).found with
            | false => rfl
            | true =>
                obtain ⟨i, v, _, _, hslot, _⟩ := findSlotSpec_found_inv hff
                exact absurd (List.mem_map.mpr ⟨(key, v), slot_mem_collect hslot,
                  rfl⟩) habs
          rw [if_neg (by simp [hf])]
          exact ⟨rfl, rfl, rfl⟩

/-- Witness for C9: removing an absent key from a one-entry chaining table. -/
theorem C9_remove_absent_noop_witness :
    "zz" ∉ (collectItems (setD (create 5 .Simple .Chaining 0 0)
        "a" "1").buckets).map Prod.fst ∧
    ((setD (create 5 .Simple .Chaining 0 0) "a" "1").remove "zz").1.success
        = false ∧
    ((setD (create 5 .Simple .Chaining 0 0) "a" "1").remove "zz").1.finalIndex
        = none ∧
    ((setD (create 5 .Simple .Chaining 0 0) "a" "1").remove "zz").2
        = setD (create 5 .Simple .Chaining 0 0) "a" "1" := by
  have habs : "zz" ∉ (collectItems (setD (create 5 .Simple .Chaining 0 0)
      "a" "1").buckets).map Prod.fst := by decide
  exact ⟨habs, C9_remove_absent_noop _ "zz" habs⟩

/-- Inverting a successful `get` on open addressing. -/
theorem get_probing_some_inv (ht : HashTable) (key : String)
    (bs : List ProbeSlot) (v : String)
    (hcol : ht.collisionResolution = .LinearProbing ∨
      ht.collisionResolution = .DoubleHashing)
    (hb : ht.buckets = .slots bs)
    (hv : (ht.get key).value = some v) :
    (findSlotSpec bs key (hashIndex ht key) (effStep ht key)
        ht.tableSize).found = true ∧
    slotAt bs (findSlotSpec bs key (hashIndex ht key) (effStep ht key)
        ht.tableSize).index.toNat = .occupied key v := by
  cases hff : (findSlotSpec bs key (hashIndex ht key) (effStep ht key)
      ht.tableSize).found with
  | false =>
      rw [get_probing_notfound ht key bs hcol hb hff] at hv
      cases hv
  | true =>
      obtain ⟨i, w, _, hidx, hslot, _⟩ := findSlotSpec_found_inv hff
      have htn : (findSlotSpec bs key (hashIndex ht key) (effStep ht key)
          ht.tableSize).index.toNat = probeAt (hashIndex ht key)
            (effStep ht key) ht.tableSize i := by
        rw [hidx]; omega
      have hslot2 : slotAt bs (findSlotSpec bs key (hashIndex ht key)
          (effStep ht key) ht.tableSize).index.toNat = .occupied key w := by
        rw [htn]; exact hslot
      rw [get_probing_found ht key bs hcol hb hff hslot2] at hv
      rw [Option.some_inj] at hv
      rw [hv] at hslot2
      exact ⟨rfl, hslot2⟩

/-- C4: on open addressing, if `get(b)` currently returns `vb` and `a ≠ b`,
then after `remove(a)` a `get(b)` still returns `vb` (tombstones keep other
keys' probe chains intact); moreover when `remove(a)` finds `a` it replaces
that slot with a Tombstone (never Empty) at the reported `finalIndex` and sets
`itemCount` to its predecessor.  Instantiated by the witness on the scenario
`set(a)`, `set(b)` probing through `a`'s slot, `remove(a)`, `get(b)`. -/
theorem C4_remove_preserves_other_keys (ht : HashTable) (a b vb : String)
    (bs : List ProbeSlot)
    (hcol : ht.collisionResolution = .LinearProbing ∨
      ht.collisionResolution = .DoubleHashing)
    (hb : ht.buckets = .slots bs)
    (hm : 0 < ht.tableSize) (hlen : bs.length = ht.tableSize)
    (hab : b ≠ a)
    (hgetb : (ht.get b).value = some vb) :
    (((ht.remove a).2).get b).value = some vb ∧
    ((ht.remove a).1.success = true →
      ∃ s : Nat, (ht.remove a).1.finalIndex = some s ∧
        (ht.remove a).2.buckets = .slots (bs.set s .tombstone) ∧
        slotAt (bs.set s .tombstone) s = .tombstone ∧
        (ht.remove a).2.itemCount = ht.itemCount - 1) := by
  rw [remove_probing_eq ht a bs hcol hb _ rfl]
  cases hfa : (findSlotSpec bs a (hashIndex ht a) (effStep ht a)
      ht.tableSize).found with
  | false =>
      rw [if_neg (by simp)]
      refine ⟨hgetb, ?_⟩
      intro hsucc
      cases hsucc
  | true =>
      rw [if_pos rfl]
      obtain ⟨ia, wa, hiam, hidxa, hslota, _⟩ := findSlotSpec_found_inv hfa
      have hsn : (findSlotSpec bs a (hashIndex ht a) (effStep ht a)
          ht.tableSize).index.toNat
          = probeAt (hashIndex ht a) (effStep ht a) ht.tableSize ia := by
        rw [hidxa]; omega
      set s := (findSlotSpec bs a (hashIndex ht a) (effStep ht a)
        ht.tableSize).index.toNat with hsdef
      have hslotas : slotAt bs s = .occupied a wa := by rw [hsn]; exact hslota
      have hslen : s < bs.length := by
        rw [hsn, hlen]
        exact Nat.mod_lt _ hm
      constructor
      · -- get b is preserved
        obtain ⟨hfb, hsb⟩ := get_probing_some_inv ht b bs vb hcol hb hgetb
        obtain ⟨ib, wb, hibm, hidxb, hslotb, hminb⟩ := findSlotSpec_found_inv hfb
        have htbn : (findSlotSpec bs b (hashIndex ht b) (effStep ht b)
            ht.tableSize).index.toNat
            = probeAt (hashIndex ht b) (effStep ht b) ht.tableSize ib := by
          rw [hidxb]; omega
        have hwb : wb = vb := by
          rw [htbn] at hsb
          rw [hslotb] at hsb
          cases hsb
          rfl
        rw [hwb] at hslotb
        -- the slot of b is not the slot of a
        have hsb_ne : probeAt (hashIndex ht b) (effStep ht b) ht.tableSize ib
            ≠ s := by
          intro he
          rw [← he] at hslotas
          rw [hslotb] at hslotas
          cases hslotas
          exact hab rfl
        -- stops for b are unchanged by the tombstone write
        have hstops2 : ∀ j, j < ib → isStopB (bs.set s .tombstone) b
            (probeAt (hashIndex ht b) (effStep ht b) ht.tableSize j) = false := by
          intro j hj
          by_cases hje : probeAt (hashIndex ht b) (effStep ht b) ht.tableSize j = s
          · rw [hje]
            rw [isStopB_of_tomb b (slotAt_set_self _ hslen)]
          · rw [slotAt_congr_isStopB b (slotAt_set_ne _ (fun h2 => hje h2.symm))]
            exact hminb j hj
        have hstopi2 : isStopB (bs.set s .tombstone) b
            (probeAt (hashIndex ht b) (effStep ht b) ht.tableSize ib) = true := by
          rw [slotAt_congr_isStopB b (slotAt_set_ne _ (fun h2 => hsb_ne h2.symm))]
          rw [isStopB_of_occ b hslotb]
          simp
        have hfi2 := firstIdx_eq_some_of hibm hstopi2 hstops2
        have hslotb2 : slotAt (bs.set s .tombstone)
            (probeAt (hashIndex ht b) (effStep ht b) ht.tableSize ib)
            = .occupied b vb := by
          rw [slotAt_set_ne _ (fun h2 => hsb_ne h2.symm)]
          exact hslotb
        have hf2 : (findSlotSpec (bs.set s .tombstone) b (hashIndex ht b)
            (effStep ht b) ht.tableSize).found = true := by
          simp only [findSlotSpec, hfi2, hslotb2]
        have hs2 : slotAt (bs.set s .tombstone)
            (findSlotSpec (bs.set s .tombstone) b (hashIndex ht b)
              (effStep ht b) ht.tableSize).index.toNat = .occupied b vb := by
          have : (findSlotSpec (bs.set s .tombstone) b (hashIndex ht b)
              (effStep ht b) ht.tableSize).index
              = ((probeAt (hashIndex ht b) (effStep ht b) ht.tableSize ib : Nat)
                : Int) := by
            simp only [findSlotSpec, hfi2, hslotb2]
          rw [show (findSlotSpec (bs.set s .tombstone) b (hashIndex ht b)
              (effStep ht b) ht.tableSize).index.toNat
              = probeAt (hashIndex ht b) (effStep ht b) ht.tableSize ib by
            rw [this]; omega]
          exact hslotb2
        exact get_probing_found _ b _ hcol rfl hf2 hs2
      · intro _
        exact ⟨s, rfl, rfl, slotAt_set_self _ hslen, rfl⟩

/-- Witness for C4: linear probing, `"a"` and `"f"` both hash to slot 2 of a
size-5 table, `"f"` settles at slot 3 through `"a"`'s slot; after
`remove("a")` the slot is a tombstone and `get("f")` still succeeds. -/
theorem C4_remove_preserves_other_keys_witness :
    (setD (setD (create 5 .Simple .LinearProbing 0 0) "a" "1") "f" "2").buckets
      = .slots [.empty, .empty, .occupied "a" "1", .occupied "f" "2", .empty] ∧
    ((setD (setD (create 5 .Simple .LinearProbing 0 0) "a" "1") "f" "2").get
      "f").value = some "2" ∧
    (((setD (setD (create 5 .Simple .LinearProbing 0 0) "a" "1") "f"
      "2").remove "a").2.get "f").value = some "2" := by
  refine ⟨by decide, by decide, ?_⟩
  exact (C4_remove_preserves_other_keys
    (setD (setD (create 5 .Simple .LinearProbing 0 0) "a" "1") "f" "2")
    "a" "f" "2"
    [.empty, .empty, .occupied "a" "1", .occupied "f" "2", .empty]
    (Or.inl (by decide)) (by decide) (by decide) (by decide) (by decide)
    (by decide)).1

/-- C3: under open addressing, `set` fails (overflow, modelled as `none`,
which by construction leaves the table unchanged) exactly when the full probe
cycle of `tableSize` probes sees only Occupied slots holding other keys; and
in the concrete `tableSize = 3` linear-probing scenario, three distinct keys
insert successfully, a fourth distinct `set` overflows, and the three
original entries remain retrievable. -/
theorem C3_overflow_exact (ht : HashTable) (key value : String)
    (bs : List ProbeSlot)
    (hcol : ht.collisionResolution = .LinearProbing ∨
      ht.collisionResolution = .DoubleHashing)
    (hb : ht.buckets = .slots bs) :
    (ht.set key value = none ↔
      ∀ i, i < ht.tableSize → ∃ k v,
        slotAt bs (probeAt (hashIndex ht key) (effStep ht key) ht.tableSize i)
          = .occupied k v ∧ k ≠ key) ∧
    ((setD (setD (setD (create 3 .Simple .LinearProbing 0 0) "a" "1") "b" "2")
        "c" "3").set "d" "4" = none ∧
      ((setD (setD (setD (create 3 .Simple .LinearProbing 0 0) "a" "1") "b"
        "2") "c" "3").get "a").value = some "1" ∧
      ((setD (setD (setD (create 3 .Simple .LinearProbing 0 0) "a" "1") "b"
        "2") "c" "3").get "b").value = some "2" ∧
      ((setD (setD (setD (create 3 .Simple .LinearProbing 0 0) "a" "1") "b"
        "2") "c" "3").get "c").value = some "3") := by
  constructor
  · rw [set_probing_eq ht key value bs hcol hb _ rfl]
    constructor
    · intro hnone
      cases hff : (findSlotSpec bs key (hashIndex ht key) (effStep ht key)
          ht.tableSize).found with
      | true => simp [hff] at hnone
      | false =>
          rw [hff] at hnone
          rw [if_neg (by simp)] at hnone
          by_cases hidx : (findSlotSpec bs key (hashIndex ht key)
              (effStep ht key) ht.tableSize).index = -1
          · exact findSlotSpec_full_iff.mp ⟨hff, hidx⟩
          · rw [if_neg hidx] at hnone
            cases hnone
    · intro hall
      obtain ⟨hff, hidx⟩ := findSlotSpec_full_iff.mpr hall
      rw [hff]
      rw [if_neg (by simp), if_pos hidx]
  · exact ⟨by decide, by decide, by decide, by decide⟩

/-- Witness for C3: the full size-3 table, with its bucket array written out;
the probe cycle for `"d"` hits only other keys, so `set` overflows. -/
theorem C3_overflow_exact_witness :
    (setD (setD (setD (create 3 .Simple .LinearProbing 0 0) "a" "1") "b" "2")
        "c" "3").buckets
      = .slots [.occupied "c" "3", .occupied "a" "1", .occupied "b" "2"] ∧
    ((setD (setD (setD (create 3 .Simple .LinearProbing 0 0) "a" "1") "b" "2")
        "c" "3").set "d" "4" = none ↔
      ∀ i, i < (setD (setD (setD (create 3 .Simple .LinearProbing 0 0) "a"
          "1") "b" "2") "c" "3").tableSize → ∃ k v,
        slotAt [.occupied "c" "3", .occupied "a" "1", .occupied "b" "2"]
            (probeAt (hashIndex (setD (setD (setD (create 3 .Simple
              .LinearProbing 0 0) "a" "1") "b" "2") "c" "3") "d")
            (effStep (setD (setD (setD (create 3 .Simple .LinearProbing 0 0)
              "a" "1") "b" "2") "c" "3") "d")
            (setD (setD (setD (create 3 .Simple .LinearProbing 0 0) "a" "1")
              "b" "2") "c" "3").tableSize i)
          = .occupied k v ∧ k ≠ "d") := by
  refine ⟨by decide, ?_⟩
  exact (C3_overflow_exact
    (setD (setD (setD (create 3 .Simple .LinearProbing 0 0) "a" "1") "b" "2")
      "c" "3") "d" "4"
    [.occupied "c" "3", .occupied "a" "1", .occupied "b" "2"]
    (Or.inl (by decide)) (by decide)).1

/-! ## Clearing on strategy change -/

theorem getD_replicate {α : Type} (n i : Nat) (a : α) :
    (List.replicate n a).getD i a = a := by
  rw [List.getD_eq_getElem?_getD, List.getElem?_replicate]
  split <;> rfl

theorem slotAt_replicate_empty (n j : Nat) :
    slotAt (List.replicate n ProbeSlot.empty) j = .empty := by
  unfold slotAt
  exact getD_replicate n j ProbeSlot.empty

theorem findSlotSpec_replicate_empty (n : Nat) (key : String) (h step m : Nat) :
    (findSlotSpec (List.replicate n .empty) key h step m).found = false := by
  cases m with
  | zero => rfl
  | succ m2 =>
      have hstop := isStopB_of_empty key
        (slotAt_replicate_empty n (probeAt h step (m2 + 1) 0))
      have hfi := @firstIdx_eq_some_of
        (fun i => isStopB (List.replicate n .empty) key (probeAt h step (m2 + 1) i))
        (m2 + 1) 0 (Nat.succ_pos m2) hstop
        (fun j hj => absurd hj (Nat.not_lt_zero j))
      simp only [findSlotSpec, hfi, slotAt_replicate_empty]

/-- `get` on freshly initialized storage finds nothing. -/
theorem get_initBuckets_none (ht : HashTable) (key : String)
    (hb : ht.buckets = initBuckets ht.collisionResolution ht.tableSize) :
    (ht.get key).value = none := by
  cases hcol : ht.collisionResolution with
  | Chaining =>
      rw [hcol] at hb
      rw [get_chaining_value ht key (List.replicate ht.tableSize []) hcol
        (by rw [hb]; rfl)]
      rw [getD_replicate]
      rfl
  | LinearProbing =>
      rw [hcol] at hb
      exact get_probing_notfound ht key _ (Or.inl hcol) (by rw [hb]; rfl)
        (findSlotSpec_replicate_empty _ key _ _ _)
  | DoubleHashing =>
      rw [hcol] at hb
      exact get_probing_notfound ht key _ (Or.inr hcol) (by rw [hb]; rfl)
        (findSlotSpec_replicate_empty _ key _ _ _)

/-- C7: every `setStrategies` call clears the table — also when only the
hashing strategy changes: immediately afterwards the load factor is 0 and no
key (in particular no previously inserted one) is found by `get`. -/
theorem C7_setStrategies_clears (ht : HashTable) (hashing : HashingStrategy)
    (collision : CollisionResolution) (ra rb : Nat) :
    getLoadFactor (setStrategies ht hashing collision ra rb) = 0 ∧
    ∀ key, ((setStrategies ht hashing collision ra rb).get key).value = none := by
  constructor
  · have hic : (setStrategies ht hashing collision ra rb).itemCount = 0 := rfl
    unfold getLoadFactor
    rw [hic]
    split
    · simp
    · rfl
  · intro key
    exact get_initBuckets_none _ key rfl

/-! ## Correctness of the prime helpers -/

theorem isPrimeAux_sound (n : Nat) :
    ∀ fuel i, i % 6 = 5 → n + 1 ≤ i + 6 * fuel →
      isPrimeAux n fuel i = true →
      ∀ m, i ≤ m → m * m ≤ n → (m % 6 = 5 ∨ m % 6 = 1) → ¬ (m ∣ n) := by
  intro fuel
  induction fuel with
  | zero =>
      intro i hi6 hfu _ m him hmm _ _
      have h1 : 1 ≤ m := by omega
      have h2 : m * 1 ≤ m * m := Nat.mul_le_mul_left m h1
      omega
  | succ fuel ih =>
      intro i hi6 hfu haux m him hmm hm6 hdvd
      by_cases hin : i * i ≤ n
      · unfold isPrimeAux at haux
        rw [if_pos hin] at haux
        by_cases hdiv : n % i = 0 || n % (i + 2) = 0
        · rw [if_pos hdiv] at haux
          cases haux
        · rw [if_neg hdiv] at haux
          simp only [Bool.or_eq_true, decide_eq_true_eq, not_or] at hdiv
          by_cases hm6i : m < i + 6
          · have : m = i ∨ m = i + 2 := by omega
            rcases this with rfl | rfl
            · exact hdiv.1 (Nat.mod_eq_zero_of_dvd hdvd)
            · exact hdiv.2 (Nat.mod_eq_zero_of_dvd hdvd)
          · exact ih (i + 6) (by omega) (by omega) haux m (by omega) hmm hm6 hdvd
      · unfold isPrimeAux at haux
        rw [if_neg hin] at haux
        have := Nat.mul_le_mul him him
        omega

theorem isPrimeAux_complete (n : Nat) :
    ∀ fuel i, 5 ≤ i → isPrimeAux n fuel i = false →
      ∃ m, m ∣ n ∧ 1 < m ∧ m < n := by
  intro fuel
  induction fuel with
  | zero => intro i _ haux; cases haux
  | succ fuel ih =>
      intro i hi5 haux
      unfold isPrimeAux at haux
      by_cases hin : i * i ≤ n
      · rw [if_pos hin] at haux
        have h5i : 5 * i ≤ i * i := Nat.mul_le_mul_right i hi5
        by_cases hdiv : n % i = 0 || n % (i + 2) = 0
        · simp only [Bool.or_eq_true, decide_eq_true_eq] at hdiv
          rcases hdiv with hd | hd
          · exact ⟨i, Nat.dvd_of_mod_eq_zero hd, by omega, by omega⟩
          · exact ⟨i + 2, Nat.dvd_of_mod_eq_zero hd, by omega, by omega⟩
        · rw [if_neg hdiv] at haux
          exact ih (i + 6) (by omega) haux
      · rw [if_neg hin] at haux
        cases haux

/-- The source `isPrime` decides primality. -/
theorem isPrime_iff (n : Nat) : isPrime n = true ↔ Nat.Prime n := by
  constructor
  · intro h
    unfold isPrime at h
    by_cases h1 : n ≤ 1
    · rw [if_pos h1] at h
      cases h
    · rw [if_neg h1] at h
      by_cases h3 : n ≤ 3
      · interval_cases n
        · decide
        · decide
      · rw [if_neg h3] at h
        by_cases hd23 : n % 2 = 0 || n % 3 = 0
        · rw [if_pos hd23] at h
          cases h
        · rw [if_neg hd23] at h
          simp only [Bool.or_eq_true, decide_eq_true_eq, not_or] at hd23
          by_contra hnp
          have hpf := Nat.minFac_prime (show n ≠ 1 by omega)
          have hpd := Nat.minFac_dvd n
          have hpsq : n.minFac ^ 2 ≤ n :=
            Nat.minFac_sq_le_self (by omega) hnp
          have hp2 : n.minFac ≠ 2 := by
            intro he
            rw [he] at hpd
            exact hd23.1 (Nat.mod_eq_zero_of_dvd hpd)
          have hp3 : n.minFac ≠ 3 := by
            intro he
            rw [he] at hpd
            exact hd23.2 (Nat.mod_eq_zero_of_dvd hpd)
          have hp5 : 5 ≤ n.minFac := by
            have h2 := hpf.two_le
            have h4 : n.minFac ≠ 4 := by
              intro he
              rw [he] at hpf
              exact absurd hpf (by decide)
            omega
          have hmod : n.minFac % 6 = 5 ∨ n.minFac % 6 = 1 := by
            have hd2 : n.minFac % 2 ≠ 0 := by
              intro he
              rcases (Nat.Prime.eq_one_or_self_of_dvd hpf 2
                (Nat.dvd_of_mod_eq_zero he)) with h2 | h2 <;> omega
            have hd3 : n.minFac % 3 ≠ 0 := by
              intro he
              rcases (Nat.Prime.eq_one_or_self_of_dvd hpf 3
                (Nat.dvd_of_mod_eq_zero he)) with h2 | h2 <;> omega
            omega
          exact isPrimeAux_sound n n 5 (by norm_num) (by omega) h n.minFac
            hp5 (by rw [pow_two] at hpsq; exact hpsq) hmod hpd
  · intro hp
    have h2 := hp.two_le
    unfold isPrime
    rw [if_neg (by omega)]
    by_cases h3 : n ≤ 3
    · rw [if_pos h3]
    · rw [if_neg h3]
      have hd2 : n % 2 ≠ 0 := by
        intro he
        rcases hp.eq_one_or_self_of_dvd 2 (Nat.dvd_of_mod_eq_zero he)
          with h4 | h4 <;> omega
      have hd3 : n % 3 ≠ 0 := by
        intro he
        rcases hp.eq_one_or_self_of_dvd 3 (Nat.dvd_of_mod_eq_zero he)
          with h4 | h4 <;> omega
      rw [if_neg (by simp [hd2, hd3])]
      by_contra haux
      rw [Bool.not_eq_true] at haux
      obtain ⟨m, hmd, hm1, hmn⟩ := isPrimeAux_complete n n 5 (by norm_num) haux
      rcases hp.eq_one_or_self_of_dvd m hmd with h4 | h4 <;> omega

theorem findPrevPrimeLoop_pos : ∀ n, 1 ≤ findPrevPrimeLoop n := by
  intro n
  induction n using Nat.strong_induction_on with
  | _ n ih =>
      match n with
      | 0 => exact le_refl 1
      | 1 => exact le_refl 1
      | k + 2 =>
          unfold findPrevPrimeLoop
          split
          · omega
          · exact ih (k + 1) (by omega)

/-- The downward scan returns the largest prime `≤ n` (for `n ≥ 2`). -/
theorem findPrevPrimeLoop_spec : ∀ n, 2 ≤ n →
    Nat.Prime (findPrevPrimeLoop n) ∧ findPrevPrimeLoop n ≤ n ∧
      ∀ q, Nat.Prime q → q ≤ n → q ≤ findPrevPrimeLoop n := by
  intro n
  induction n using Nat.strong_induction_on with
  | _ n ih =>
      intro h2
      match n, h2 with
      | k + 2, _ =>
          unfold findPrevPrimeLoop
          by_cases hp : isPrime (k + 2) = true
          · rw [if_pos hp]
            exact ⟨(isPrime_iff _).mp hp, le_refl _, fun q _ hq => hq⟩
          · rw [if_neg hp]
            have hk2 : ¬Nat.Prime (k + 2) := fun hc => hp ((isPrime_iff _).mpr hc)
            have hk1 : 2 ≤ k + 1 := by
              rcases Nat.eq_or_lt_of_le (show 2 ≤ k + 2 by omega) with he | hl
              · exact absurd (by rw [← he]; exact Nat.prime_two) hk2
              · omega
            obtain ⟨ha, hb, hc⟩ := ih (k + 1) (by omega) hk1
            refine ⟨ha, by omega, fun q hq hqn => ?_⟩
            have : q ≠ k + 2 := fun he => hk2 (he ▸ hq)
            exact hc q hq (by omega)

theorem findPrevPrime_pos (num : Nat) : 1 ≤ findPrevPrime num := by
  unfold findPrevPrime
  split
  · omega
  · exact findPrevPrimeLoop_pos _

/-- `findPrevPrime num` is the largest prime strictly below `num`, for
`num ≥ 3`. -/
theorem findPrevPrime_spec (num : Nat) (h3 : 3 ≤ num) :
    Nat.Prime (findPrevPrime num) ∧ findPrevPrime num < num ∧
      ∀ q, Nat.Prime q → q < num → q ≤ findPrevPrime num := by
  unfold findPrevPrime
  rw [if_neg (by omega)]
  obtain ⟨ha, hb, hc⟩ := findPrevPrimeLoop_spec (num - 1) (by omega)
  exact ⟨ha, by omega, fun q hq hqn => hc q hq (by omega)⟩

theorem findPrevPrime_two : findPrevPrime 2 = 1 := rfl

/-- The upward scan reaches the least prime `q ≥` its start, provided
`q ≤ 2 * num` (so the safety fallback never fires) and enough fuel remains. -/
theorem findNextPrimeLoop_spec (num q : Nat) (hq : Nat.Prime q)
    (hq2 : q ≤ 2 * num) :
    ∀ fuel v, v ≤ q → q - v < fuel →
      (∀ w, v ≤ w → w < q → ¬ Nat.Prime w) →
      findNextPrimeLoop num fuel v = q := by
  intro fuel
  induction fuel with
  | zero => intro v _ hfu _; omega
  | succ fuel ih =>
      intro v hvq hfu hmin
      unfold findNextPrimeLoop
      rcases Nat.eq_or_lt_of_le hvq with rfl | hvlt
      · rw [if_pos ((isPrime_iff v).mpr hq)]
      · have hnp : ¬Nat.Prime v := hmin v (le_refl v) hvlt
        have hipv : isPrime v = false := by
          cases hiv : isPrime v
          · rfl
          · exact absurd ((isPrime_iff v).mp hiv) hnp
        rw [hipv]
        rw [if_neg (by simp)]
        rw [if_neg (by omega)]
        exact ih (v + 1) (by omega) (by omega)
          (fun w hw hwq => hmin w (by omega) hwq)

/-- `findNextPrime num` is the smallest prime `≥ num`. -/
theorem findNextPrime_spec (num : Nat) :
    Nat.Prime (findNextPrime num) ∧ num ≤ findNextPrime num ∧
      ∀ q, Nat.Prime q → num ≤ q → findNextPrime num ≤ q := by
  unfold findNextPrime
  by_cases h2 : num ≤ 2
  · rw [if_pos h2]
    exact ⟨Nat.prime_two, h2, fun q hq _ => hq.two_le⟩
  · rw [if_neg h2]
    obtain ⟨p0, hp0, hlt0, hle0⟩ :=
      Nat.exists_prime_lt_and_le_two_mul num (by omega)
    have hex : ∃ p, num ≤ p ∧ Nat.Prime p := ⟨p0, Nat.le_of_lt hlt0, hp0⟩
    obtain ⟨hqn, hqp⟩ := Nat.find_spec hex
    have hq2 : Nat.find hex ≤ 2 * num :=
      le_trans (Nat.find_min' hex ⟨Nat.le_of_lt hlt0, hp0⟩) hle0
    have hloop := findNextPrimeLoop_spec num (Nat.find hex) hqp hq2
      (2 * num + 1000002) num hqn (by omega)
      (fun w hw hwq hwp => Nat.find_min hex hwq ⟨hw, hwp⟩)
    rw [hloop]
    exact ⟨hqp, hqn, fun q hq hnq => Nat.find_min' hex ⟨hnq, hq⟩⟩

theorem doubleHashingRFor_eq (ts : Nat) :
    doubleHashingRFor ts = findPrevPrime ts := by
  unfold doubleHashingRFor
  have := findPrevPrime_pos ts
  simp only []
  rw [if_neg (by omega)]

/-- C5 counterexample: a double-hashing table with `tableSize = 3` (reachable
from requested size 3) has `R = findPrevPrime 3 = 2`, not 1, and the key
`"b"` gets step 2 — refuting "R = 1, which occurs whenever tableSize ≤ 3,
forces step = 1 always". -/
theorem C5_counterexample_tableSize_three :
    (create 3 .Simple .DoubleHashing 0 0).tableSize = 3 ∧
    (create 3 .Simple .DoubleHashing 0 0).tableSize ≤ 3 ∧
    (create 3 .Simple .DoubleHashing 0 0).double_hashing_R = 2 ∧
    (create 3 .Simple .DoubleHashing 0 0).double_hashing_R ≠ 1 ∧
    hash2 (create 3 .Simple .DoubleHashing 0 0) "b" = 2 ∧
    hash2 (create 3 .Simple .DoubleHashing 0 0) "b" ≠ 1 := by
  refine ⟨by decide, by decide, by decide, by decide, by decide, by decide⟩

/-- C5 amended: with `R` set from `tableSize` as the source does
(`findPrevPrime`, i.e. the largest prime strictly below `tableSize` once
`tableSize ≥ 3`, with fallback 1) and `tableSize ≥ 2` (always true under open
addressing), every key's step is `R - (k mod R)` and satisfies
`1 ≤ step ≤ R < tableSize`; the degenerate case `R = 1` occurs exactly when
`tableSize = 2` (not whenever `tableSize ≤ 3`), and then the step is always
1, degrading double hashing to linear probing. -/
theorem C5_hash2_step_bounds (ht : HashTable) (key : String)
    (hR : ht.double_hashing_R = doubleHashingRFor ht.tableSize)
    (hm : 2 ≤ ht.tableSize) :
    hash2 ht key = ht.double_hashing_R
        - keyToInteger ht.universal_p key % ht.double_hashing_R ∧
    1 ≤ hash2 ht key ∧
    hash2 ht key ≤ ht.double_hashing_R ∧
    ht.double_hashing_R < ht.tableSize ∧
    (ht.double_hashing_R = 1 ↔ ht.tableSize = 2) ∧
    (ht.tableSize = 2 → hash2 ht key = 1) ∧
    (3 ≤ ht.tableSize → Nat.Prime ht.double_hashing_R ∧
      ∀ q, Nat.Prime q → q < ht.tableSize → q ≤ ht.double_hashing_R) := by
  rw [doubleHashingRFor_eq] at hR
  have hRpos : 1 ≤ ht.double_hashing_R := hR ▸ findPrevPrime_pos ht.tableSize
  refine ⟨?_, hash2_pos ht key, hash2_le_R ht key (by omega), ?_, ?_, ?_, ?_⟩
  · unfold hash2
    rw [if_neg (by omega)]
  · by_cases hts : ht.tableSize = 2
    · rw [hts] at hR
      rw [findPrevPrime_two] at hR
      omega
    · exact hR ▸ (findPrevPrime_spec ht.tableSize (by omega)).2.1
  · constructor
    · intro h1
      by_contra hts
      have hp := (findPrevPrime_spec ht.tableSize (by omega)).1
      rw [← hR, h1] at hp
      exact absurd hp (by decide)
    · intro hts
      rw [hts, findPrevPrime_two] at hR
      exact hR
  · intro hts
    have h1 : ht.double_hashing_R = 1 := by
      rw [hts, findPrevPrime_two] at hR
      exact hR
    unfold hash2
    rw [if_neg (by omega), h1, Nat.mod_one]
  · intro h3
    obtain ⟨ha, _, hc⟩ := findPrevPrime_spec ht.tableSize h3
    exact ⟨hR ▸ ha, fun q hq hqlt => hR ▸ hc q hq hqlt⟩

/-- Witness for the amended C5 on a size-7 double-hashing table (R = 5). -/
theorem C5_hash2_step_bounds_witness :
    (create 7 .Simple .DoubleHashing 0 0).double_hashing_R
      = doubleHashingRFor (create 7 .Simple .DoubleHashing 0 0).tableSize ∧
    2 ≤ (create 7 .Simple .DoubleHashing 0 0).tableSize ∧
    1 ≤ hash2 (create 7 .Simple .DoubleHashing 0 0) "b" ∧
    hash2 (create 7 .Simple .DoubleHashing 0 0) "b"
      ≤ (create 7 .Simple .DoubleHashing 0 0).double_hashing_R ∧
    (create 7 .Simple .DoubleHashing 0 0).double_hashing_R
      < (create 7 .Simple .DoubleHashing 0 0).tableSize := by
  have h := C5_hash2_step_bounds (create 7 .Simple .DoubleHashing 0 0) "b"
    (by decide) (by decide)
  exact ⟨by decide, by decide, h.2.1, h.2.2.1, h.2.2.2.1⟩

/-- C10: construction is total for any integer requested size; the stored
`size` is `max(1, requestedSize)`; for open addressing `tableSize` is the
smallest prime `≥ size` (hence `≥ 2`), for chaining `tableSize = size ≥ 1`;
so `tableSize ≥ 1` always and the hash modulo never divides by zero
(`hashIndex` lands strictly below `tableSize`). -/
theorem C10_constructor_safe (requestedSize : Int)
    (hashing : HashingStrategy) (collision : CollisionResolution)
    (ra rb : Nat) :
    1 ≤ (create requestedSize hashing collision ra rb).tableSize ∧
    (create requestedSize hashing collision ra rb).size
      = (max 1 requestedSize).toNat ∧
    1 ≤ (create requestedSize hashing collision ra rb).size ∧
    (isProbingPolicy collision = true →
      Nat.Prime (create requestedSize hashing collision ra rb).tableSize ∧
      (create requestedSize hashing collision ra rb).size
        ≤ (create requestedSize hashing collision ra rb).tableSize ∧
      (∀ q, Nat.Prime q →
        (create requestedSize hashing collision ra rb).size ≤ q →
        (create requestedSize hashing collision ra rb).tableSize ≤ q) ∧
      2 ≤ (create requestedSize hashing collision ra rb).tableSize) ∧
    (collision = .Chaining →
      (create requestedSize hashing collision ra rb).tableSize
        = (create requestedSize hashing collision ra rb).size) ∧
    ∀ key, hashIndex (create requestedSize hashing collision ra rb) key
      < (create requestedSize hashing collision ra rb).tableSize := by
  have hsz : (create requestedSize hashing collision ra rb).size
      = (max 1 requestedSize).toNat := rfl
  have hts : (create requestedSize hashing collision ra rb).tableSize
      = (if isProbingPolicy collision then
          findNextPrime ((max 1 requestedSize).toNat)
        else (max 1 requestedSize).toNat) := rfl
  have hs1 : 1 ≤ (max 1 requestedSize).toNat := by
    have h := Int.toNat_le_toNat (le_max_left 1 requestedSize)
    omega
  have htge : 1 ≤ (create requestedSize hashing collision ra rb).tableSize := by
    rw [hts]
    split
    · have := (findNextPrime_spec ((max 1 requestedSize).toNat)).1.two_le
      omega
    · omega
  refine ⟨htge, hsz, by rw [hsz]; exact hs1, ?_, ?_, ?_⟩
  · intro hpp
    rw [hts, if_pos hpp, hsz]
    obtain ⟨ha, hb, hc⟩ := findNextPrime_spec ((max 1 requestedSize).toNat)
    exact ⟨ha, hb, hc, ha.two_le⟩
  · intro hc
    rw [hts, hsz, hc]
    rfl
  · intro key
    exact hashIndex_lt _ key htge

/-- Witness for C10: a negative requested size with universal hashing and
double hashing still yields a prime table size of at least 2. -/
theorem C10_constructor_safe_witness :
    isProbingPolicy .DoubleHashing = true ∧
    1 ≤ (create (-7) .Universal .DoubleHashing 5 9).tableSize ∧
    Nat.Prime (create (-7) .Universal .DoubleHashing 5 9).tableSize ∧
    2 ≤ (create (-7) .Universal .DoubleHashing 5 9).tableSize ∧
    hashIndex (create (-7) .Universal .DoubleHashing 5 9) "x"
      < (create (-7) .Universal .DoubleHashing 5 9).tableSize := by
  have h := C10_constructor_safe (-7) .Universal .DoubleHashing 5 9
  exact ⟨by decide, h.1, (h.2.2.2.1 (by decide)).1,
    (h.2.2.2.1 (by decide)).2.2.2, h.2.2.2.2.2 "x"⟩

/-- C6: for double hashing with prime `tableSize` and prime
`R < tableSize`, the probe sequence `(initialIndex + i*step) mod tableSize`,
`i = 0 .. tableSize-1`, with `step = hash2(key)`, visits all `tableSize`
distinct slots before any repetition, for every key and every initial
index (and `_findSlot` indeed probes with this step: its safety clamp is the
identity here). -/
theorem C6_double_hashing_full_cycle (ht : HashTable) (key : String) (h : Nat)
    (hcol : ht.collisionResolution = .DoubleHashing)
    (hmp : Nat.Prime ht.tableSize)
    (hRp : Nat.Prime ht.double_hashing_R)
    (hRlt : ht.double_hashing_R < ht.tableSize) :
    effStep ht key = hash2 ht key ∧
    ((List.range ht.tableSize).map
      (probeAt h (hash2 ht key) ht.tableSize)).Nodup ∧
    ∀ j, j < ht.tableSize →
      j ∈ (List.range ht.tableSize).map (probeAt h (hash2 ht key) ht.tableSize) := by
  have hR1 : 0 < ht.double_hashing_R := hRp.pos
  have hstep1 : 1 ≤ hash2 ht key := hash2_pos ht key
  have hstepR : hash2 ht key ≤ ht.double_hashing_R := hash2_le_R ht key hR1
  have hstepm : hash2 ht key < ht.tableSize := by omega
  have hcop : Nat.gcd ht.tableSize (hash2 ht key) = 1 := by
    have hnd : ¬ ht.tableSize ∣ hash2 ht key := by
      intro hdvd
      have := Nat.le_of_dvd (by omega) hdvd
      omega
    exact (Nat.Prime.coprime_iff_not_dvd hmp).mpr hnd
  have hinj : ∀ i, i < ht.tableSize → ∀ j, j < ht.tableSize →
      probeAt h (hash2 ht key) ht.tableSize i
        = probeAt h (hash2 ht key) ht.tableSize j → i = j := by
    intro i hi j hj heq
    unfold probeAt at heq
    have hme : Nat.ModEq ht.tableSize (h + i * hash2 ht key)
        (h + j * hash2 ht key) := heq
    have hme2 := Nat.ModEq.add_left_cancel' h hme
    have hme3 : Nat.ModEq ht.tableSize i j :=
      Nat.ModEq.cancel_right_of_coprime hcop hme2
    unfold Nat.ModEq at hme3
    rw [Nat.mod_eq_of_lt hi, Nat.mod_eq_of_lt hj] at hme3
    exact hme3
  constructor
  · exact effStep_eq_hash2 ht key hcol hR1 hRlt
  constructor
  · apply List.Nodup.map_on
    · intro i hi j hj
      exact hinj i (List.mem_range.mp hi) j (List.mem_range.mp hj)
    · exact List.nodup_range _
  · intro j hj
    have himage : (Finset.range ht.tableSize).image
        (probeAt h (hash2 ht key) ht.tableSize) = Finset.range ht.tableSize := by
      apply Finset.eq_of_subset_of_card_le
      · intro x hx
        obtain ⟨i, hi, rfl⟩ := Finset.mem_image.mp hx
        have : probeAt h (hash2 ht key) ht.tableSize i < ht.tableSize :=
          Nat.mod_lt _ (by have := hmp.two_le; omega)
        exact Finset.mem_range.mpr this
      · have hio : Set.InjOn (probeAt h (hash2 ht key) ht.tableSize)
            ↑(Finset.range ht.tableSize) := by
          intro x hx y hy
          exact hinj x (Finset.mem_range.mp (Finset.mem_coe.mp hx)) y
            (Finset.mem_range.mp (Finset.mem_coe.mp hy))
        rw [Finset.card_image_of_injOn hio, Finset.card_range]
    have hj2 : j ∈ (Finset.range ht.tableSize).image
        (probeAt h (hash2 ht key) ht.tableSize) := by
      rw [himage]
      exact Finset.mem_range.mpr hj
    obtain ⟨i, hi, hji⟩ := Finset.mem_image.mp hj2
    exact List.mem_map.mpr ⟨i, List.mem_range.mpr (Finset.mem_range.mp hi), hji⟩

/-- Witness for C6: `tableSize = 7`, `R = 5`, key `"b"`, initial index 3. -/
theorem C6_double_hashing_full_cycle_witness :
    (create 7 .Simple .DoubleHashing 0 0).collisionResolution
      = .DoubleHashing ∧
    Nat.Prime (create 7 .Simple .DoubleHashing 0 0).tableSize ∧
    Nat.Prime (create 7 .Simple .DoubleHashing 0 0).double_hashing_R ∧
    (create 7 .Simple .DoubleHashing 0 0).double_hashing_R
      < (create 7 .Simple .DoubleHashing 0 0).tableSize ∧
    ((List.range (create 7 .Simple .DoubleHashing 0 0).tableSize).map
      (probeAt 3 (hash2 (create 7 .Simple .DoubleHashing 0 0) "b")
        (create 7 .Simple .DoubleHashing 0 0).tableSize)).Nodup ∧
    6 ∈ (List.range (create 7 .Simple .DoubleHashing 0 0).tableSize).map
      (probeAt 3 (hash2 (create 7 .Simple .DoubleHashing 0 0) "b")
        (create 7 .Simple .DoubleHashing 0 0).tableSize) := by
  have h := C6_double_hashing_full_cycle (create 7 .Simple .DoubleHashing 0 0)
    "b" 3 (by decide) (by norm_num [show (create 7 .Simple .DoubleHashing 0 0).tableSize = 7 from by decide])
    (by norm_num [show (create 7 .Simple .DoubleHashing 0 0).double_hashing_R = 5 from by decide])
    (by decide)
  exact ⟨by decide, by norm_num [show (create 7 .Simple .DoubleHashing 0 0).tableSize = 7 from by decide],
    by norm_num [show (create 7 .Simple .DoubleHashing 0 0).double_hashing_R = 5 from by decide],
    by decide, h.2.1, h.2.2 6 (by decide)⟩

/-! ## Infrastructure for the resize proof -/

/-- Whether a probing slot is occupied. -/
def isOcc : ProbeSlot → Bool
  | .occupied _ _ => true
  | _ => false

/-- Number of occupied slots. -/
def occCount (bs : List ProbeSlot) : Nat := bs.countP isOcc

theorem slotAt_mem {bs : List ProbeSlot} {j : Nat} (hj : j < bs.length) :
    slotAt bs j ∈ bs := by
  unfold slotAt
  rw [List.getD_eq_getElem?_getD, List.getElem?_eq_getElem hj, Option.getD_some]
  exact List.getElem_mem hj

theorem occCount_lt_exists_empty {bs : List ProbeSlot}
    (hnt : ∀ s ∈ bs, s ≠ .tombstone) (hocc : occCount bs < bs.length) :
    ∃ j, j < bs.length ∧ slotAt bs j = .empty := by
  have hne : ¬ ∀ s ∈ bs, isOcc s = true := by
    intro hall
    unfold occCount at hocc
    rw [List.countP_eq_length.mpr hall] at hocc
    omega
  push_neg at hne
  obtain ⟨s, hsmem, hso⟩ := hne
  obtain ⟨j, hj, hsj⟩ := List.mem_iff_getElem.mp hsmem
  refine ⟨j, hj, ?_⟩
  have hslot : slotAt bs j = s := by
    unfold slotAt
    rw [List.getD_eq_getElem?_getD, List.getElem?_eq_getElem hj,
      Option.getD_some, hsj]
  rw [hslot]
  cases s with
  | empty => rfl
  | tombstone => exact absurd rfl (hnt _ hsmem)
  | occupied k v => exact absurd rfl hso

theorem occCount_set_occ {bs : List ProbeSlot} {t : Nat} {k v : String}
    (hte : slotAt bs t = .empty) (htl : t < bs.length) :
    occCount (bs.set t (.occupied k v)) = occCount bs + 1 := by
  induction bs generalizing t with
  | nil => cases htl
  | cons s rest ih =>
      cases t with
      | zero =>
          have hs : s = .empty := by
            unfold slotAt at hte
            simpa using hte
          subst hs
          simp [occCount, List.countP_cons, isOcc]
      | succ t2 =>
          have hte2 : slotAt rest t2 = .empty := by
            unfold slotAt at hte ⊢
            simpa using hte
          have := ih hte2 (by simpa using htl)
          simp only [List.set_cons_succ, occCount, List.countP_cons] at *
          omega

theorem noTomb_set_occ {bs : List ProbeSlot} {t : Nat} {k v : String}
    (hnt : ∀ s ∈ bs, s ≠ .tombstone) :
    ∀ s ∈ bs.set t (.occupied k v), s ≠ .tombstone := by
  intro s hsmem
  rcases List.mem_or_eq_of_mem_set hsmem with hs | hs
  · exact hnt s hs
  · rw [hs]
    intro hc
    cases hc

theorem slotEntries_set_sub {bs : List ProbeSlot} {t : Nat} {x : ProbeSlot}
    {k v : String} (hmem : (k, v) ∈ collectItems (.slots (bs.set t x))) :
    (k, v) ∈ collectItems (.slots bs) ∨ x = .occupied k v := by
  unfold collectItems at hmem ⊢
  obtain ⟨s, hsmem, hse⟩ := List.mem_filterMap.mp hmem
  rcases List.mem_or_eq_of_mem_set hsmem with hs | hs
  · exact Or.inl (List.mem_filterMap.mpr ⟨s, hs, hse⟩)
  · right
    rw [hs] at hse
    cases x <;> simp_all

/-- Full-cycle coverage of the probe sequence for a step coprime to the
table size. -/
theorem probe_coverage (h step m : Nat) (hm : 0 < m)
    (hcop : Nat.gcd m step = 1) :
    ∀ j, j < m → ∃ i, i < m ∧ probeAt h step m i = j := by
  have hinj : ∀ i, i < m → ∀ j, j < m →
      probeAt h step m i = probeAt h step m j → i = j := by
    intro i hi j hj heq
    unfold probeAt at heq
    have hme : Nat.ModEq m (h + i * step) (h + j * step) := heq
    have hme2 := Nat.ModEq.add_left_cancel' h hme
    have hme3 : Nat.ModEq m i j := Nat.ModEq.cancel_right_of_coprime hcop hme2
    unfold Nat.ModEq at hme3
    rw [Nat.mod_eq_of_lt hi, Nat.mod_eq_of_lt hj] at hme3
    exact hme3
  intro j hj
  have himage : (Finset.range m).image (probeAt h step m) = Finset.range m := by
    apply Finset.eq_of_subset_of_card_le
    · intro x hx
      obtain ⟨i, hi, rfl⟩ := Finset.mem_image.mp hx
      exact Finset.mem_range.mpr (Nat.mod_lt _ hm)
    · have hio : Set.InjOn (probeAt h step m) ↑(Finset.range m) := by
        intro x hx y hy
        exact hinj x (Finset.mem_range.mp (Finset.mem_coe.mp hx)) y
          (Finset.mem_range.mp (Finset.mem_coe.mp hy))
      rw [Finset.card_image_of_injOn hio, Finset.card_range]
  have hj2 : j ∈ (Finset.range m).image (probeAt h step m) := by
    rw [himage]
    exact Finset.mem_range.mpr hj
  obtain ⟨i, hi, hji⟩ := Finset.mem_image.mp hj2
  exact ⟨i, Finset.mem_range.mp hi, hji⟩

/-- The step `_findSlot` uses is always in `[1, tableSize)` once
`tableSize ≥ 2`. -/
theorem effStep_bounds (ht : HashTable) (key : String)
    (h2 : 2 ≤ ht.tableSize) :
    1 ≤ effStep ht key ∧ effStep ht key < ht.tableSize := by
  unfold effStep
  split
  · split
    · omega
    · rename_i hcond
      push_neg at hcond
      have := hash2_pos ht key
      omega
  · omega

/-- Inserting a fresh key at an Empty slot preserves the successful search of
any other key. -/
theorem insert_preserves_find (bs : List ProbeSlot) (b vb k v : String)
    (hb2 stepb m t : Nat)
    (hte : slotAt bs t = .empty)
    (hfb : (findSlotSpec bs b hb2 stepb m).found = true)
    (hsb : slotAt bs (findSlotSpec bs b hb2 stepb m).index.toNat
      = .occupied b vb) :
    (findSlotSpec (bs.set t (.occupied k v)) b hb2 stepb m).found = true ∧
    slotAt (bs.set t (.occupied k v))
      (findSlotSpec (bs.set t (.occupied k v)) b hb2 stepb m).index.toNat
      = .occupied b vb := by
  obtain ⟨ib, wb, hibm, hidxb, hslotb, hminb⟩ := findSlotSpec_found_inv hfb
  have htbn : (findSlotSpec bs b hb2 stepb m).index.toNat
      = probeAt hb2 stepb m ib := by
    rw [hidxb]; omega
  have hwb : wb = vb := by
    rw [htbn, hslotb] at hsb
    cases hsb
    rfl
  rw [hwb] at hslotb
  have hne_ib : probeAt hb2 stepb m ib ≠ t := by
    intro he
    rw [he, hte] at hslotb
    cases hslotb
  have hstops2 : ∀ j, j < ib → isStopB (bs.set t (.occupied k v)) b
      (probeAt hb2 stepb m j) = false := by
    intro j hj
    have hne_j : probeAt hb2 stepb m j ≠ t := by
      intro he
      have := hminb j hj
      rw [he, isStopB_of_empty b hte] at this
      cases this
    rw [slotAt_congr_isStopB b (slotAt_set_ne _ (fun h2 => hne_j h2.symm))]
    exact hminb j hj
  have hslotb2 : slotAt (bs.set t (.occupied k v)) (probeAt hb2 stepb m ib)
      = .occupied b vb := by
    rw [slotAt_set_ne _ (fun h2 => hne_ib h2.symm)]
    exact hslotb
  have hstopi2 : isStopB (bs.set t (.occupied k v)) b
      (probeAt hb2 stepb m ib) = true := by
    rw [isStopB_of_occ b hslotb2]
    simp
  have hfi2 := firstIdx_eq_some_of hibm hstopi2 hstops2
  constructor
  · simp only [findSlotSpec, hfi2, hslotb2]
  · have hidx2 : (findSlotSpec (bs.set t (.occupied k v)) b hb2 stepb m).index
        = ((probeAt hb2 stepb m ib : Nat) : Int) := by
      simp only [findSlotSpec, hfi2, hslotb2]
    rw [show (findSlotSpec (bs.set t (.occupied k v)) b hb2 stepb m).index.toNat
        = probeAt hb2 stepb m ib by rw [hidx2]; omega]
    exact hslotb2

theorem chainSet_of_fresh (bucket : List (String × String)) (k v : String)
    (hfresh : k ∉ bucket.map Prod.fst) :
    chainSet bucket k v = (false, bucket ++ [(k, v)]) := by
  induction bucket with
  | nil => rfl
  | cons e rest ih =>
      obtain ⟨k1, v1⟩ := e
      simp only [List.map_cons, List.mem_cons, not_or] at hfresh
      unfold chainSet
      rw [if_neg (fun h => hfresh.1 h.symm), ih hfresh.2]
      rfl

theorem find?_append_some {α : Type} (l1 l2 : List α) (p : α → Bool)
    (e : α) (h : l1.find? p = some e) : (l1 ++ l2).find? p = some e := by
  induction l1 with
  | nil => cases h
  | cons a l1 ih =>
      by_cases hpa : p a = true
      · rw [List.find?_cons_of_pos _ hpa] at h
        rw [List.cons_append, List.find?_cons_of_pos _ hpa]
        exact h
      · rw [List.find?_cons_of_neg _ (by simpa using hpa)] at h
        rw [List.cons_append, List.find?_cons_of_neg _ (by simpa using hpa)]
        exact ih h

theorem chain_collect_set_sub {bs : List (List (String × String))} {i : Nat}
    {b1 : List (String × String)} {e : String × String}
    (hmem : e ∈ collectItems (.chains (bs.set i b1))) :
    e ∈ collectItems (.chains bs) ∨ e ∈ b1 := by
  unfold collectItems at hmem ⊢
  obtain ⟨l, hlmem, hel⟩ := List.mem_flatten.mp hmem
  rcases List.mem_or_eq_of_mem_set hlmem with hl | hl
  · exact Or.inl (List.mem_flatten.mpr ⟨l, hl, hel⟩)
  · exact Or.inr (hl ▸ hel)

theorem occCount_replicate_empty (n : Nat) :
    occCount (List.replicate n .empty) = 0 := by
  unfold occCount
  rw [List.countP_eq_zero]
  intro a ha
  rw [List.eq_of_mem_replicate ha]
  decide

theorem collect_slots_replicate_empty (n : Nat) :
    collectItems (.slots (List.replicate n .empty)) = [] := by
  unfold collectItems
  induction n with
  | zero => rfl
  | succ n ih => simp [List.replicate_succ, ih]

theorem collect_chains_replicate_nil (n : Nat) :
    collectItems (.chains (List.replicate n ([] : List (String × String)))) = [] := by
  unfold collectItems
  induction n with
  | zero => rfl
  | succ n ih => simp [List.replicate_succ, ih]

/-- Re-inserting a batch of fresh, pairwise-distinct keys into a
tombstone-free open-addressing table with room for all of them keeps every
batch entry and every previously retrievable key retrievable. -/
theorem rehashFold_probing :
    ∀ (items : List (String × String)) (ht : HashTable) (bs : List ProbeSlot),
      (ht.collisionResolution = .LinearProbing ∨
        ht.collisionResolution = .DoubleHashing) →
      ht.buckets = .slots bs →
      bs.length = ht.tableSize →
      0 < ht.tableSize →
      (∀ key, Nat.gcd ht.tableSize (effStep ht key) = 1) →
      (∀ s ∈ bs, s ≠ .tombstone) →
      occCount bs + items.length ≤ ht.tableSize →
      (items.map Prod.fst).Nodup →
      (∀ k2 v2, (k2, v2) ∈ collectItems (.slots bs) →
        k2 ∉ items.map Prod.fst) →
      ∀ k0 v0,
        (((ht.get k0).value = some v0 ∧ k0 ∉ items.map Prod.fst) ∨
          (k0, v0) ∈ items) →
        ((rehashFold ht items).get k0).value = some v0 := by
  intro items
  induction items with
  | nil =>
      intro ht bs _ _ _ _ _ _ _ _ _ k0 v0 hcase
      rcases hcase with ⟨hget, _⟩ | hmem
      · exact hget
      · cases hmem
  | cons kv rest ih =>
      obtain ⟨k, v⟩ := kv
      intro ht bs hcol hb hlen hm hcop hnt hocc hnd hdisj k0 v0 hcase
      have hblen : bucketsLen ht.buckets = ht.tableSize := by
        rw [hb]
        simpa [bucketsLen] using hlen
      have hkin : k ∈ ((k, v) :: rest).map Prod.fst := by simp
      -- the head key is fresh, so its search fails
      have hfk : (findSlotSpec bs k (hashIndex ht k) (effStep ht k)
          ht.tableSize).found = false := by
        cases hff : (findSlotSpec bs k (hashIndex ht k) (effStep ht k)
            ht.tableSize).found with
        | false => rfl
        | true =>
            obtain ⟨i, w, _, _, hslot, _⟩ := findSlotSpec_found_inv hff
            exact absurd hkin (hdisj k w (slot_mem_collect hslot))
      -- there is an Empty slot on the probe cycle
      obtain ⟨j0, hj0l, hj0e⟩ := occCount_lt_exists_empty hnt
        (by rw [hlen]; simp only [List.length_cons] at hocc; omega)
      obtain ⟨i0, hi0m, hpi0⟩ := probe_coverage (hashIndex ht k)
        (effStep ht k) ht.tableSize hm (hcop k) j0 (by omega)
      -- so the search reports an insertion slot
      have hidx : (findSlotSpec bs k (hashIndex ht k) (effStep ht k)
          ht.tableSize).index ≠ -1 := by
        intro hneg
        obtain ⟨k2, v2, hsl, _⟩ :=
          findSlotSpec_full_iff.mp ⟨hfk, hneg⟩ i0 hi0m
        rw [hpi0, hj0e] at hsl
        cases hsl
      obtain ⟨ip, hipm, hidxe, hslot_ip, _⟩ := findSlotSpec_avail_inv hfk hidx
      have htp : (findSlotSpec bs k (hashIndex ht k) (effStep ht k)
          ht.tableSize).index.toNat
          = probeAt (hashIndex ht k) (effStep ht k) ht.tableSize ip := by
        rw [hidxe]; omega
      have hple : probeAt (hashIndex ht k) (effStep ht k) ht.tableSize ip
          < bs.length := by
        rw [hlen]
        exact Nat.mod_lt _ hm
      have hslt : slotAt bs (probeAt (hashIndex ht k) (effStep ht k)
          ht.tableSize ip) = .empty := by
        rcases hslot_ip with h1 | h1
        · exact h1
        · exact absurd rfl (hnt _ (h1 ▸ slotAt_mem hple))
      have hsltT : slotAt bs (findSlotSpec bs k (hashIndex ht k)
          (effStep ht k) ht.tableSize).index.toNat = .empty := by
        rw [htp]; exact hslt
      have hTle : (findSlotSpec bs k (hashIndex ht k) (effStep ht k)
          ht.tableSize).index.toNat < bs.length := by
        rw [htp]; exact hple
      -- the head set succeeds
      have hseteq := set_probing_eq ht k v bs hcol hb _ rfl
      rw [if_neg (by simp [hfk]), if_neg hidx] at hseteq
      -- fold one step
      have hfold : rehashFold ht ((k, v) :: rest)
          = rehashFold { ht with buckets := .slots (bs.set (findSlotSpec bs k (hashIndex ht k) (effStep ht k) ht.tableSize).index.toNat (.occupied k v)), itemCount := ht.itemCount + 1 } rest := by
        unfold rehashFold
        rw [List.foldl_cons]
        dsimp only
        rw [hseteq]
      rw [hfold]
      -- invariants for the next state
      have hnd2 : (List.map Prod.fst ((k, v) :: rest)).Nodup := hnd
      rw [List.map_cons, List.nodup_cons] at hnd2
      have hknr : k ∉ rest.map Prod.fst := hnd2.1
      have hrt : (({ ht with buckets := .slots (bs.set (findSlotSpec bs k (hashIndex ht k) (effStep ht k) ht.tableSize).index.toNat (.occupied k v)), itemCount := ht.itemCount + 1 } : HashTable).get k).value = some v :=
        set_then_get ht k v hm hblen _ _ hseteq
      have hdisj1 : ∀ k2 v2, (k2, v2) ∈ collectItems (.slots (bs.set
          (findSlotSpec bs k (hashIndex ht k) (effStep ht k)
            ht.tableSize).index.toNat (.occupied k v))) →
          k2 ∉ rest.map Prod.fst := by
        intro k2 v2 hmem2 hk2
        rcases slotEntries_set_sub hmem2 with hold | hnew
        · exact hdisj k2 v2 hold (by simp [hk2])
        · cases hnew
          exact hknr hk2
      refine ih ({ ht with buckets := .slots (bs.set (findSlotSpec bs k (hashIndex ht k) (effStep ht k) ht.tableSize).index.toNat (.occupied k v)), itemCount := ht.itemCount + 1 } : HashTable) (bs.set (findSlotSpec bs k (hashIndex ht k) (effStep ht k)
          ht.tableSize).index.toNat (.occupied k v)) hcol rfl
        (by rw [List.length_set]; exact hlen) hm hcop
        (noTomb_set_occ hnt)
        (by show occCount (bs.set (findSlotSpec bs k (hashIndex ht k) (effStep ht k) ht.tableSize).index.toNat (.occupied k v)) + rest.length ≤ ht.tableSize
            rw [occCount_set_occ hsltT hTle]
            simp only [List.length_cons] at hocc
            omega)
        hnd2.2 hdisj1 k0 v0 ?_
      -- dispatch the three cases
      rcases hcase with ⟨hget0, hnotin⟩ | hmem
      · have hk0k : k0 ≠ k := by
          intro he
          exact hnotin (by simp [he])
        obtain ⟨hf0, hs0⟩ := get_probing_some_inv ht k0 bs v0 hcol hb hget0
        obtain ⟨hf1, hs1⟩ := insert_preserves_find bs k0 v0 k v
          (hashIndex ht k0) (effStep ht k0) ht.tableSize
          (findSlotSpec bs k (hashIndex ht k) (effStep ht k)
            ht.tableSize).index.toNat hsltT hf0 hs0
        have hget1 := get_probing_found
          ({ ht with buckets := .slots (bs.set (findSlotSpec bs k (hashIndex ht k) (effStep ht k) ht.tableSize).index.toNat (.occupied k v)), itemCount := ht.itemCount + 1 } : HashTable)
          k0 _ hcol rfl hf1 hs1
        exact Or.inl ⟨hget1, fun hc => hnotin (by simp [hc])⟩
      · rcases List.mem_cons.mp hmem with heq | hrestmem
        · cases heq
          exact Or.inl ⟨hrt, hknr⟩
        · exact Or.inr hrestmem

/-- Re-inserting a batch of fresh, pairwise-distinct keys into a chaining
table keeps every batch entry and every previously retrievable key
retrievable. -/
theorem rehashFold_chaining :
    ∀ (items : List (String × String)) (ht : HashTable)
      (bs : List (List (String × String))),
      ht.collisionResolution = .Chaining →
      ht.buckets = .chains bs →
      bs.length = ht.tableSize →
      0 < ht.tableSize →
      (items.map Prod.fst).Nodup →
      (∀ k2 v2, (k2, v2) ∈ collectItems (.chains bs) →
        k2 ∉ items.map Prod.fst) →
      ∀ k0 v0,
        (((ht.get k0).value = some v0 ∧ k0 ∉ items.map Prod.fst) ∨
          (k0, v0) ∈ items) →
        ((rehashFold ht items).get k0).value = some v0 := by
  intro items
  induction items with
  | nil =>
      intro ht bs _ _ _ _ _ _ k0 v0 hcase
      rcases hcase with ⟨hget, _⟩ | hmem
      · exact hget
      · cases hmem
  | cons kv rest ih =>
      obtain ⟨k, v⟩ := kv
      intro ht bs hcol hb hlen hm hnd hdisj k0 v0 hcase
      have hblen : bucketsLen ht.buckets = ht.tableSize := by
        rw [hb]
        simpa [bucketsLen] using hlen
      have hkin : k ∈ ((k, v) :: rest).map Prod.fst := by simp
      have hil : hashIndex ht k < bs.length := by
        rw [hlen]
        exact hashIndex_lt ht k hm
      -- the head key is fresh in its chain
      have hfresh : k ∉ (bs.getD (hashIndex ht k) []).map Prod.fst := by
        intro hc
        obtain ⟨e, hemem, hek⟩ := List.mem_map.mp hc
        obtain ⟨ek, ev⟩ := e
        cases hek
        exact hdisj _ ev (chain_mem_collect hemem) hkin
      have hcs : chainSet (bs.getD (hashIndex ht k) []) k v
          = (false, bs.getD (hashIndex ht k) [] ++ [(k, v)]) :=
        chainSet_of_fresh _ k v hfresh
      have hseteq : ht.set k v = some (⟨false, ((hashIndex ht k : Nat) : Int),
          (bs.getD (hashIndex ht k) []).length + 1, [hashIndex ht k]⟩,
          { ht with buckets := .chains (bs.set (hashIndex ht k) (bs.getD (hashIndex ht k) [] ++ [(k, v)])), itemCount := ht.itemCount + 1 }) := by
        rw [set_chaining_eq ht k v bs hcol hb, hcs]
        rfl
      -- fold one step
      have hfold : rehashFold ht ((k, v) :: rest)
          = rehashFold { ht with buckets := .chains (bs.set (hashIndex ht k) (bs.getD (hashIndex ht k) [] ++ [(k, v)])), itemCount := ht.itemCount + 1 } rest := by
        unfold rehashFold
        rw [List.foldl_cons]
        dsimp only
        rw [hseteq]
      rw [hfold]
      have hnd2 : (List.map Prod.fst ((k, v) :: rest)).Nodup := hnd
      rw [List.map_cons, List.nodup_cons] at hnd2
      have hknr : k ∉ rest.map Prod.fst := hnd2.1
      have hrt : (({ ht with buckets := .chains (bs.set (hashIndex ht k) (bs.getD (hashIndex ht k) [] ++ [(k, v)])), itemCount := ht.itemCount + 1 } : HashTable).get k).value = some v :=
        set_then_get ht k v hm hblen _ _ hseteq
      have hdisj1 : ∀ k2 v2, (k2, v2) ∈ collectItems (.chains (bs.set
          (hashIndex ht k) (bs.getD (hashIndex ht k) [] ++ [(k, v)]))) →
          k2 ∉ rest.map Prod.fst := by
        intro k2 v2 hmem2 hk2
        rcases chain_collect_set_sub hmem2 with hold | hnew
        · exact hdisj k2 v2 hold (by simp [hk2])
        · rcases List.mem_append.mp hnew with hold2 | hkv
          · exact hdisj k2 v2 (chain_mem_collect hold2) (by simp [hk2])
          · rw [List.mem_singleton] at hkv
            cases hkv
            exact hknr hk2
      refine ih ({ ht with buckets := .chains (bs.set (hashIndex ht k) (bs.getD (hashIndex ht k) [] ++ [(k, v)])), itemCount := ht.itemCount + 1 } : HashTable)
        (bs.set (hashIndex ht k) (bs.getD (hashIndex ht k) [] ++ [(k, v)]))
        hcol rfl (by rw [List.length_set]; exact hlen) hm hnd2.2 hdisj1
        k0 v0 ?_
      rcases hcase with ⟨hget0, hnotin⟩ | hmem
      · -- previously retrievable keys stay retrievable
        have hk0k : k0 ≠ k := by
          intro he
          exact hnotin (by simp [he])
        have hgv0 := get_chaining_value ht k0 bs hcol hb
        rw [hget0] at hgv0
        obtain ⟨e, hfind, hev⟩ := (Option.map_eq_some').mp hgv0.symm
        have hgv1 := get_chaining_value
          ({ ht with buckets := .chains (bs.set (hashIndex ht k) (bs.getD (hashIndex ht k) [] ++ [(k, v)])), itemCount := ht.itemCount + 1 } : HashTable)
          k0 _ hcol rfl
        refine Or.inl ⟨?_, fun hc => hnotin (by simp [hc])⟩
        rw [hgv1]
        show (((bs.set (hashIndex ht k) (bs.getD (hashIndex ht k)
            [] ++ [(k, v)])).getD (hashIndex ht k0) []).find?
            (fun e => e.1 = k0)).map Prod.snd = some v0
        by_cases hidx : hashIndex ht k = hashIndex ht k0
        · rw [← hidx] at hfind
          rw [← hidx, getD_set_self _ _ _ _ hil]
          rw [find?_append_some _ [(k, v)] _ e hfind]
          show some e.2 = some v0
          rw [hev]
        · rw [getD_set_ne _ _ _ hidx, hfind]
          show some e.2 = some v0
          rw [hev]
      · rcases List.mem_cons.mp hmem with heq | hrestmem
        · cases heq
          exact Or.inl ⟨hrt, hknr⟩
        · exact Or.inr hrestmem

theorem gcd_effStep_linear (ht : HashTable) (key : String)
    (hcol : ht.collisionResolution = .LinearProbing) :
    Nat.gcd ht.tableSize (effStep ht key) = 1 := by
  rw [effStep_eq_one ht key (by rw [hcol]; decide)]
  exact Nat.gcd_one_right _

theorem gcd_effStep_double (ht : HashTable) (key : String)
    (hprime : Nat.Prime ht.tableSize) :
    Nat.gcd ht.tableSize (effStep ht key) = 1 := by
  have h2 : 2 ≤ ht.tableSize := hprime.two_le
  obtain ⟨h1, hlt⟩ := effStep_bounds ht key h2
  have hnd : ¬ ht.tableSize ∣ effStep ht key := by
    intro hdvd
    have := Nat.le_of_dvd (by omega) hdvd
    omega
  exact (Nat.Prime.coprime_iff_not_dvd hprime).mpr hnd

/-- C8: when the requested new size is at least `itemCount / 0.5` (twice the
number of live entries), `resize` keeps every previously-live key retrievable
via `get` with its previous value: the live entries are collected from the
old storage (tombstones skipped) and re-inserted through the ordinary `set`
path into fresh storage of the new `tableSize`, for every collision policy.
(The live keys are assumed pairwise distinct, the invariant the `set`/`remove`
paths maintain, and `itemCount` is assumed to count the live entries.) -/
theorem C8_resize_preserves_data (ht : HashTable) (n : Int)
    (huk : ((collectItems ht.buckets).map Prod.fst).Nodup)
    (hic : ht.itemCount = (collectItems ht.buckets).length)
    (hn : 2 * (ht.itemCount : Int) ≤ n) :
    ∀ k v, (k, v) ∈ collectItems ht.buckets →
      ((ht.resize n).get k).value = some v := by
  intro k v hkv
  have hs21 : 1 ≤ (max 1 n).toNat := by omega
  have hLs2 : 2 * (collectItems ht.buckets).length ≤ (max 1 n).toNat := by
    rw [hic] at hn
    omega
  cases hcol : ht.collisionResolution with
  | Chaining =>
      have hresize : ht.resize n
          = rehashFold { ht with buckets := .chains (List.replicate (max 1 n).toNat []), size := (max 1 n).toNat, tableSize := (max 1 n).toNat, itemCount := 0 } (collectItems ht.buckets) := by
        unfold HashTable.resize HashTable.initializeBuckets
        dsimp only
        rw [hcol]
        dsimp only [isProbingPolicy, initBuckets]
        rw [if_neg (by decide : ¬((false : Bool) = true))]
        rw [if_neg (by decide : ¬(CollisionResolution.Chaining = CollisionResolution.DoubleHashing))]
        rw [if_neg (by intro hg; omega)]
      rw [hresize]
      refine rehashFold_chaining (collectItems ht.buckets)
        ({ ht with buckets := .chains (List.replicate (max 1 n).toNat []), size := (max 1 n).toNat, tableSize := (max 1 n).toNat, itemCount := 0 } : HashTable)
        (List.replicate (max 1 n).toNat []) hcol rfl (by simp)
        (by show 0 < (max 1 n).toNat
            omega) huk ?_ k v (Or.inr hkv)
      intro k2 v2 hmem
      rw [collect_chains_replicate_nil] at hmem
      cases hmem
  | LinearProbing =>
      have hts2 : 2 ≤ findNextPrime (max 1 n).toNat :=
        (findNextPrime_spec _).1.two_le
      have hresize : ht.resize n
          = rehashFold { ht with buckets := .slots (List.replicate (findNextPrime (max 1 n).toNat) .empty), size := (max 1 n).toNat, tableSize := findNextPrime (max 1 n).toNat, itemCount := 0 } (collectItems ht.buckets) := by
        unfold HashTable.resize HashTable.initializeBuckets
        dsimp only
        rw [hcol]
        dsimp only [isProbingPolicy, initBuckets]
        rw [if_pos (rfl : (true : Bool) = true)]
        rw [if_neg (by decide : ¬(CollisionResolution.LinearProbing = CollisionResolution.DoubleHashing))]
        rw [if_neg (by intro hg; omega)]
      rw [hresize]
      refine rehashFold_probing (collectItems ht.buckets)
        ({ ht with buckets := .slots (List.replicate (findNextPrime (max 1 n).toNat) .empty), size := (max 1 n).toNat, tableSize := findNextPrime (max 1 n).toNat, itemCount := 0 } : HashTable)
        (List.replicate (findNextPrime (max 1 n).toNat) .empty)
        (Or.inl hcol) rfl (by simp)
        (by show 0 < findNextPrime (max 1 n).toNat
            omega)
        (fun key => gcd_effStep_linear _ key hcol)
        (by intro s hs
            rw [List.eq_of_mem_replicate hs]
            decide)
        (by show occCount (List.replicate (findNextPrime (max 1 n).toNat) .empty) + (collectItems ht.buckets).length ≤ findNextPrime (max 1 n).toNat
            rw [occCount_replicate_empty]
            have hup := (findNextPrime_spec (max 1 n).toNat).2.1
            omega)
        huk ?_ k v (Or.inr hkv)
      intro k2 v2 hmem
      rw [collect_slots_replicate_empty] at hmem
      cases hmem
  | DoubleHashing =>
      have hts2 : 2 ≤ findNextPrime (max 1 n).toNat :=
        (findNextPrime_spec _).1.two_le
      have hresize : ht.resize n
          = rehashFold { ht with buckets := .slots (List.replicate (findNextPrime (max 1 n).toNat) .empty), size := (max 1 n).toNat, tableSize := findNextPrime (max 1 n).toNat, double_hashing_R := doubleHashingRFor (findNextPrime (max 1 n).toNat), itemCount := 0 } (collectItems ht.buckets) := by
        unfold HashTable.resize HashTable.initializeBuckets
        dsimp only
        rw [hcol]
        dsimp only [isProbingPolicy, initBuckets]
        rw [if_pos (rfl : (true : Bool) = true)]
        rw [if_pos (rfl : CollisionResolution.DoubleHashing = CollisionResolution.DoubleHashing)]
        rw [if_neg (by intro hg; omega)]
      rw [hresize]
      refine rehashFold_probing (collectItems ht.buckets)
        ({ ht with buckets := .slots (List.replicate (findNextPrime (max 1 n).toNat) .empty), size := (max 1 n).toNat, tableSize := findNextPrime (max 1 n).toNat, double_hashing_R := doubleHashingRFor (findNextPrime (max 1 n).toNat), itemCount := 0 } : HashTable)
        (List.replicate (findNextPrime (max 1 n).toNat) .empty)
        (Or.inr hcol) rfl (by simp)
        (by show 0 < findNextPrime (max 1 n).toNat
            omega)
        (fun key => gcd_effStep_double _ key (findNextPrime_spec _).1)
        (by intro s hs
            rw [List.eq_of_mem_replicate hs]
            decide)
        (by show occCount (List.replicate (findNextPrime (max 1 n).toNat) .empty) + (collectItems ht.buckets).length ≤ findNextPrime (max 1 n).toNat
            rw [occCount_replicate_empty]
            have hup := (findNextPrime_spec (max 1 n).toNat).2.1
            omega)
        huk ?_ k v (Or.inr hkv)
      intro k2 v2 hmem
      rw [collect_slots_replicate_empty] at hmem
      cases hmem

/-- C8 witness: a concrete linear-probing table with two live entries
("a" -> "1", "b" -> "2"), resized to 10 >= 2 * 2, still returns "1" for
"a" after the resize. -/
theorem C8_resize_preserves_data_witness :
    ((List.map Prod.fst (collectItems (setD (setD (create 3 .Simple .LinearProbing 0 0) "a" "1") "b" "2").buckets)).Nodup
      ∧ (setD (setD (create 3 .Simple .LinearProbing 0 0) "a" "1") "b" "2").itemCount = (collectItems (setD (setD (create 3 .Simple .LinearProbing 0 0) "a" "1") "b" "2").buckets).length
      ∧ 2 * (((setD (setD (create 3 .Simple .LinearProbing 0 0) "a" "1") "b" "2").itemCount : Int)) ≤ 10
      ∧ ("a", "1") ∈ collectItems (setD (setD (create 3 .Simple .LinearProbing 0 0) "a" "1") "b" "2").buckets)
    ∧ ((((setD (setD (create 3 .Simple .LinearProbing 0 0) "a" "1") "b" "2").resize 10).get "a").value = some "1") :=
  ⟨⟨by decide, by decide, by decide, by decide⟩,
    C8_resize_preserves_data (setD (setD (create 3 .Simple .LinearProbing 0 0) "a" "1") "b" "2") 10
      (by decide) (by decide) (by decide) "a" "1" (by decide)⟩

end DSA
